import Mathlib

/-!
Verification of the ElNeuKGQA query-tools core against its specification.

Modelling conventions (shallow embedding of the Python sources):
* Python strings are modelled as `List Char` (`Str` below).  A SPARQL query
  is modelled as the list of its whitespace-delimited words
  (`List Str`): every regular expression used by `Query.compress`,
  `Query.decompress` and `Query.is_compressed`
  (src/query_tools/base_query.py) is built from non-whitespace atoms
  (`\S`, literal prefixes and URIs), so a match of any of those patterns
  never crosses a whitespace boundary and `re.sub` over the full text
  factors through the word list, word by word.
* `re.sub` semantics are implemented by hand for each concrete pattern:
  scan left to right, replace each non-overlapping leftmost match,
  continue scanning after the replaced segment.
* Machine integers do not occur in the modelled fragment; scores are
  modelled as rationals.
-/

set_option maxRecDepth 20000
set_option synthInstance.maxSize 2000

namespace ElNeuKGQA

/-- Python strings, modelled as lists of characters. -/
abbrev Str := List Char

/-- A query text, modelled as its list of whitespace-delimited words. -/
abbrev Words := List Str

/-- Helper for `subCompress`: split a character list at its first `>`
(the non-greedy `(\S+?)>` tail of the pattern `<uri(\S+?)>`): returns the
characters strictly before the first `>` and the characters after it, or
`none` when no `>` occurs. -/
def takeUntilGt : Str → Option (Str × Str)
  | [] => none
  | c :: rest =>
    if c = '>' then some ([], rest)
    else (takeUntilGt rest).map (fun ab => (c :: ab.1, ab.2))

/-- One `re.sub(f"<{uri}(\S+?)>", f"{prefix}:\g<1>", word)` pass of
`Query.compress` (src/query_tools/base_query.py, lines 94-97), on a single
word: replace every `<uri NAME>` (NAME nonempty, up to the first `>`)
by `prefix:NAME`.  The scan consumes at least one character per step, so a
gas budget of the word length makes the recursion structural (the gas
never runs out; the `0` row is dead for the gas chosen by `subCompress`). -/
def subCompressGo (p u : Str) : Nat → Str → Str
  | _, [] => []
  | 0, s => s
  | gas + 1, c :: rest =>
    if c = '<' ∧ u.isPrefixOf rest then
      match takeUntilGt (rest.drop u.length) with
      | some (name, after) =>
        if name ≠ [] then (p ++ [':'] ++ name) ++ subCompressGo p u gas after
        else c :: subCompressGo p u gas rest
      | none => c :: subCompressGo p u gas rest
    else c :: subCompressGo p u gas rest

/-- The full `compress` substitution pass for one `(prefix, uri)` pair on
one word. -/
def subCompress (p u : Str) (s : Str) : Str := subCompressGo p u s.length s

/-- One `re.sub(f"{prefix}:(\S+)", f"<{uri}\g<1>>", word)` pass of
`Query.decompress` (src/query_tools/base_query.py, lines 111-113), on a
single word: at the first position where `prefix:` occurs followed by at
least one character, the greedy `\S+` consumes the rest of the word and the
match `prefix:REST` is replaced by `<uri REST>`. -/
def subDecompress (p u : Str) : Str → Str
  | [] => []
  | c :: rest =>
    if (p ++ [':']).isPrefixOf (c :: rest) ∧ p.length + 1 < (c :: rest).length then
      ('<' :: u) ++ (c :: rest).drop (p.length + 1) ++ ['>']
    else c :: subDecompress p u rest

/-- The ordered Wikidata prefix table `WIKIDATA_PREFIXES`
(src/query_tools/wikidata_utils.py, lines 51-62). -/
def WIKIDATA_PREFIXES : List (Str × Str) := [
  ("wd".toList, "http://www.wikidata.org/entity/".toList),
  ("wdt".toList, "http://www.wikidata.org/prop/direct/".toList),
  ("wiki".toList, "https://en.wikipedia.org/wiki/".toList),
  ("wikibase".toList, "http://wikiba.se/ontology#".toList),
  ("ps".toList, "http://www.wikidata.org/prop/statement/".toList),
  ("pq".toList, "http://www.wikidata.org/prop/qualifier/".toList),
  ("p".toList, "http://www.wikidata.org/prop/".toList),
  ("rdfs".toList, "http://www.w3.org/2000/01/rdf-schema#".toList),
  ("bd".toList, "http://www.bigdata.com/rdf#".toList),
  ("schema".toList, "http://schema.org/".toList),
  ("skos".toList, "http://www.w3.org/2004/02/skos/core#".toList)]

/-- `Query.is_compressed` (src/query_tools/base_query.py, line 80):
`re.search("<*>", text) is None`, i.e. the text contains no `>` character
(the `*` makes the leading `<` optional, so the pattern matches any `>`). -/
def is_compressed (q : Words) : Bool := q.all (fun w => ! w.contains '>')

/-- `Query.compress` (src/query_tools/base_query.py, lines 82-97): return
the text unchanged when it is already compressed, otherwise apply the
`<uri(\S+?)> ↦ prefix:\1` substitution for every prefix-table entry in
order. -/
def compress (ptable : List (Str × Str)) (q : Words) : Words :=
  if is_compressed q then q
  else ptable.foldl (fun qq pu => qq.map (subCompress pu.1 pu.2)) q

/-- `Query.decompress` (src/query_tools/base_query.py, lines 99-114): return
the text unchanged when it is not compressed, otherwise apply the
`prefix:(\S+) ↦ <uri\1>` substitution for every prefix-table entry in
order. -/
def decompress (ptable : List (Str × Str)) (q : Words) : Words :=
  if is_compressed q then
    ptable.foldl (fun qq pu => qq.map (subDecompress pu.1 pu.2)) q
  else q

/-- The compressed query of the repository's own unit test
`testWikidataQuery` (src/query_tools/test/test_query_utils.py):
`SELECT DISTINCT ?uri WHERE { wd:Q4072104 wdt:P184 ?uri }`. -/
def testQueryCompressed : Words :=
  ["SELECT".toList, "DISTINCT".toList, "?uri".toList, "WHERE".toList,
   "\x7b".toList, "wd:Q4072104".toList, "wdt:P184".toList, "?uri".toList,
   "\x7d".toList]

/-- The decompressed text that the same unit test asserts
`decompress` must produce. -/
def testQueryDecompressed : Words :=
  ["SELECT".toList, "DISTINCT".toList, "?uri".toList, "WHERE".toList,
   "\x7b".toList, "<http://www.wikidata.org/entity/Q4072104>".toList,
   "<http://www.wikidata.org/prop/direct/P184>".toList, "?uri".toList,
   "\x7d".toList]

/-- What `Query.decompress` actually produces on the test query: the later
`p:(\S+)` rule of the fold re-matches inside the `http:` of the URIs that
the earlier `wd`/`wdt` rules produced, corrupting both resources. -/
def testQueryCorrupted : Words :=
  ["SELECT".toList, "DISTINCT".toList, "?uri".toList, "WHERE".toList,
   "\x7b".toList,
   "<htt<http://www.wikidata.org/prop///www.wikidata.org/entity/Q4072104>>".toList,
   "<htt<http://www.wikidata.org/prop///www.wikidata.org/prop/direct/P184>>".toList,
   "?uri".toList, "\x7d".toList]

/-! ## Tokenizer (src/query_tools/base_tokenizer.py, wikidata_utils.py)

The tokenizer operates on the raw query text, so from here on text is
modelled as a single `Str` (whitespace characters included).  Each regular
expression of `WIKIDATA_REGEX_REPLACE_RULES` / `WIKIDATA_REGEX_BACK_REPLACE_RULES`
is implemented as a dedicated left-to-right scanner with `re.sub`
semantics; the literal rules of `WIKIDATA_REPLACE_RULES` use `replaceAll`
(their keys contain no regex metacharacters, so `str.replace` and
`re.sub` coincide on them). -/

/-- Python `\s` on the ASCII fragment we model. -/
def isWs (c : Char) : Bool :=
  c = ' ' || c = '\t' || c = '\n' || c = '\r' || c = '\x0b' || c = '\x0c'

/-- Python `\w` (equivalently `[\w\d_]`) on the ASCII fragment we model. -/
def isWordChar (c : Char) : Bool := c.isAlphanum || c = '_'

/-- Python `str.strip()`. -/
def stripWs (s : Str) : Str := ((s.dropWhile isWs).reverse.dropWhile isWs).reverse

/-- Python `str.lower()` (ASCII). -/
def toLowerStr (s : Str) : Str := s.map Char.toLower

/-- Apply `f` to every maximal whitespace-free run of `s`, preserving the
whitespace characters.  Used to lift the per-word `compress`/`decompress`
substitutions to full texts. -/
def mapWordsGo (f : Str → Str) : Nat → Str → Str
  | _, [] => []
  | 0, s => s
  | gas + 1, c :: rest =>
    if isWs c then c :: mapWordsGo f gas rest
    else
      f ((c :: rest).takeWhile (fun d => ! isWs d)) ++
        mapWordsGo f gas ((c :: rest).dropWhile (fun d => ! isWs d))

def mapWords (f : Str → Str) (s : Str) : Str := mapWordsGo f s.length s

/-- `Query.is_compressed` on a raw text. -/
def isCompressedText (s : Str) : Bool := ! s.contains '>'

/-- `Query.compress` on a raw text (the per-word substitution of
`subCompress` lifted over the words of the text). -/
def compressText (s : Str) : Str :=
  if isCompressedText s then s
  else WIKIDATA_PREFIXES.foldl (fun t pu => mapWords (subCompress pu.1 pu.2) t) s

/-- `str.replace(pat, rep)` / `re.sub` for a literal pattern: replace every
non-overlapping occurrence, left to right.  (For an empty pattern we return
the text unchanged; all patterns in the rule tables are nonempty.) -/
def replaceAllGo (pat rep : Str) : Nat → Str → Str
  | _, [] => []
  | 0, s => s
  | gas + 1, c :: rest =>
    if pat ≠ [] ∧ pat.isPrefixOf (c :: rest) then
      rep ++ replaceAllGo pat rep gas ((c :: rest).drop pat.length)
    else c :: replaceAllGo pat rep gas rest

def replaceAll (pat rep s : Str) : Str := replaceAllGo pat rep s.length s

/-- Rule `<([\w\d_]+)>` ↦ `placeholder_\1`. -/
def subPlaceholderGo : Nat → Str → Str
  | _, [] => []
  | 0, s => s
  | gas + 1, c :: rest =>
    if c = '<' then
      match rest.takeWhile isWordChar, rest.dropWhile isWordChar with
      | run@(_ :: _), '>' :: tail =>
        ("placeholder_".toList ++ run) ++ subPlaceholderGo gas tail
      | _, _ => c :: subPlaceholderGo gas rest
    else c :: subPlaceholderGo gas rest

def subPlaceholder (s : Str) : Str := subPlaceholderGo s.length s

/-- Rule `(\d)[.](\d)` ↦ `\1_dot_\2`. -/
def subNumDot : Str → Str
  | a :: '.' :: b :: rest =>
    if a.isDigit ∧ b.isDigit then (a :: "_dot_".toList) ++ b :: subNumDot rest
    else a :: subNumDot ('.' :: b :: rest)
  | c :: rest => c :: subNumDot rest
  | [] => []

/-- Characters before the next `'` quote together with the remainder after
it; `none` when no quote (or a newline, which `.` cannot match) follows. -/
def takeUntilQuote : Str → Option (Str × Str)
  | [] => none
  | c :: rest =>
    if c = '\x27' then some ([], rest)
    else if c = '\n' then none
    else (takeUntilQuote rest).map (fun ab => (c :: ab.1, ab.2))

/-- Rule `'(.*?)'` ↦ `apstrph_\1_apstrph`. -/
def subApstrphGo : Nat → Str → Str
  | _, [] => []
  | 0, s => s
  | gas + 1, c :: rest =>
    if c = '\x27' then
      match takeUntilQuote rest with
      | some (content, after) =>
        ("apstrph_".toList ++ content ++ "_apstrph".toList) ++ subApstrphGo gas after
      | none => c :: subApstrphGo gas rest
    else c :: subApstrphGo gas rest

def subApstrph (s : Str) : Str := subApstrphGo s.length s

/-- The punctuation class `[}{)(.,><=]` of the spacing rule. -/
def isPunct1 (c : Char) : Bool :=
  c = '\x7d' || c = '\x7b' || c = ')' || c = '(' || c = '.' || c = ',' ||
    c = '>' || c = '<' || c = '='

/-- Rule `\s*([}{)(.,><=])\s*` ↦ ` \1 `. -/
def subPunctGo : Nat → Str → Str
  | _, [] => []
  | 0, s => s
  | gas + 1, c :: rest =>
    if isPunct1 c then
      (' ' :: c :: [' ']) ++ subPunctGo gas (rest.dropWhile isWs)
    else if isWs c then
      match (c :: rest).dropWhile isWs with
      | p :: tail =>
        if isPunct1 p then (' ' :: p :: [' ']) ++ subPunctGo gas (tail.dropWhile isWs)
        else ((c :: rest).takeWhile isWs) ++ subPunctGo gas (p :: tail)
      | [] => (c :: rest).takeWhile isWs
    else c :: subPunctGo gas rest

def subPunct (s : Str) : Str := subPunctGo s.length s

/-- Rule `\s{2,}` ↦ ` ` (runs of two or more whitespace characters become a
single space; a lone whitespace character is kept as is). -/
def collapseWsGo : Nat → Str → Str
  | _, [] => []
  | 0, s => s
  | gas + 1, c :: rest =>
    if isWs c then
      if rest.takeWhile isWs ≠ [] then ' ' :: collapseWsGo gas (rest.dropWhile isWs)
      else c :: collapseWsGo gas rest
    else c :: collapseWsGo gas rest

def collapseWs (s : Str) : Str := collapseWsGo s.length s

/-- The ordered literal rule table `WIKIDATA_REPLACE_RULES`
(src/query_tools/wikidata_utils.py, lines 6-27), as (token, text) pairs. -/
def WIKIDATA_REPLACE_RULES : List (Str × Str) := [
  ("brack_open".toList, "\x7b".toList),
  ("brack_close".toList, "\x7d".toList),
  ("attr_open".toList, "(".toList),
  ("attr_close".toList, ")".toList),
  ("var_".toList, "?".toList),
  ("sep_dot".toList, ".".toList),
  ("sep_comma".toList, ",".toList),
  ("_oba_".toList, "order by asc".toList),
  ("_obd_".toList, "order by desc".toList),
  ("_grb_".toList, "group by".toList),
  ("wd_".toList, "wd:".toList),
  ("wdt_".toList, "wdt:".toList),
  ("rdfs_".toList, "rdfs:".toList),
  ("rdf_".toList, "rdf:".toList),
  ("foaf_".toList, "foaf:".toList),
  ("p_".toList, "p:".toList),
  ("ps_".toList, "ps:".toList),
  ("pq_".toList, "pq:".toList),
  ("bd_".toList, "bd:".toList)]

/-- The ordered regex pass of `Tokenizer.encode`
(`WIKIDATA_REGEX_REPLACE_RULES`, src/query_tools/wikidata_utils.py,
lines 29-37). -/
def wikidataRegexPass (s : Str) : Str :=
  let q := subPlaceholder s
  let q := subNumDot q
  let q := subApstrph q
  let q := subPunct q
  let q := replaceAll ">".toList "math_gt".toList q
  let q := replaceAll "<".toList "math_lt".toList q
  let q := replaceAll "=".toList "math_eq".toList q
  collapseWs q

/-- `WikidataTokenizer.encode` (src/query_tools/base_tokenizer.py,
lines 33-48): compress, strip, lower-case, apply the regex rules in order,
then the literal rules in order, then strip. -/
def wikidataEncode (s : Str) : Str :=
  let q := toLowerStr (stripWs (compressText s))
  let q := wikidataRegexPass q
  let q := WIKIDATA_REPLACE_RULES.foldl (fun t kr => replaceAll kr.2 kr.1 t) q
  stripWs q

/-- Back rule `placeholder_(\w+)` ↦ `<\1>`. -/
def subPlaceholderBackGo : Nat → Str → Str
  | _, [] => []
  | 0, s => s
  | gas + 1, c :: rest =>
    if ("placeholder_".toList).isPrefixOf (c :: rest) then
      match ((c :: rest).drop 12).takeWhile isWordChar,
            ((c :: rest).drop 12).dropWhile isWordChar with
      | run@(_ :: _), tail => ('<' :: run ++ ['>']) ++ subPlaceholderBackGo gas tail
      | [], _ => c :: subPlaceholderBackGo gas rest
    else c :: subPlaceholderBackGo gas rest

def subPlaceholderBack (s : Str) : Str := subPlaceholderBackGo s.length s

/-- Back rule `(\d)_dot_(\d)` ↦ `\1.\2`. -/
def subNumDotBackGo : Nat → Str → Str
  | _, [] => []
  | 0, s => s
  | gas + 1, a :: rest =>
    match rest.drop 5 with
    | b :: rest2 =>
      if a.isDigit ∧ ("_dot_".toList).isPrefixOf rest ∧ b.isDigit then
        a :: '.' :: b :: subNumDotBackGo gas rest2
      else a :: subNumDotBackGo gas rest
    | [] => a :: subNumDotBackGo gas rest

def subNumDotBack (s : Str) : Str := subNumDotBackGo s.length s

/-- Characters before the next occurrence of `marker` together with the
remainder after it; `none` when the marker does not occur (or a newline
intervenes, which `.` cannot match). -/
def splitAtMarker (marker : Str) : Str → Option (Str × Str)
  | [] => none
  | c :: rest =>
    if marker.isPrefixOf (c :: rest) then some ([], (c :: rest).drop marker.length)
    else if c = '\n' then none
    else (splitAtMarker marker rest).map (fun ab => (c :: ab.1, ab.2))

/-- Back rule `apstrph_(.*?)_apstrph` ↦ `'\1'`. -/
def subApstrphBackGo : Nat → Str → Str
  | _, [] => []
  | 0, s => s
  | gas + 1, c :: rest =>
    if ("apstrph_".toList).isPrefixOf (c :: rest) then
      match splitAtMarker "_apstrph".toList ((c :: rest).drop 8) with
      | some (content, after) =>
        ('\x27' :: content ++ ['\x27']) ++ subApstrphBackGo gas after
      | none => c :: subApstrphBackGo gas rest
    else c :: subApstrphBackGo gas rest

def subApstrphBack (s : Str) : Str := subApstrphBackGo s.length s

/-- Matcher for the correction rules `\b(\w+):q(\d+)\b` and
`\b(\w+):p(\d+)\b` (src/query_tools/base_tokenizer.py, lines 96-97) at the
current position (the word boundary before the match is checked by the
caller): a nonempty word run, a colon, the literal letter `lc`, a nonempty
digit run, and a word boundary after it.  Returns the word run, digit run
and the remainder. -/
def matchColonLower (lc : Char) (s : Str) : Option (Str × Str × Str) :=
  match s.takeWhile isWordChar, s.dropWhile isWordChar with
  | run1@(_ :: _), ':' :: c2 :: rest2 =>
    if c2 = lc then
      let digits := rest2.takeWhile Char.isDigit
      let after := rest2.dropWhile Char.isDigit
      if digits ≠ [] ∧ (after.head?.all (fun d => ! isWordChar d)) then
        some (run1, digits, after)
      else none
    else none
  | _, _ => none

/-- One correction rule `\b(\w+):lc(\d+)\b` ↦ `\1:uc\2`, scanning left to
right while tracking whether the previous character was a word character
(for the leading `\b`). -/
def qpCorrectionGo (lc uc : Char) : Nat → Bool → Str → Str
  | _, _, [] => []
  | 0, _, s => s
  | gas + 1, prevW, c :: rest =>
    if prevW then c :: qpCorrectionGo lc uc gas (isWordChar c) rest
    else
      match matchColonLower lc (c :: rest) with
      | some (run1, digits, after) =>
        (run1 ++ [':', uc] ++ digits) ++ qpCorrectionGo lc uc gas true after
      | none => c :: qpCorrectionGo lc uc gas (isWordChar c) rest

def qpCorrection (lc uc : Char) (s : Str) : Str := qpCorrectionGo lc uc s.length false s

/-- `WikidataTokenizer._correction` (src/query_tools/base_tokenizer.py,
lines 89-99): restore upper-case `Q`/`P` identifiers, collapse duplicate
whitespace. -/
def wikidataCorrection (s : Str) : Str :=
  collapseWs (qpCorrection 'p' 'P' (qpCorrection 'q' 'Q' s))

/-- `WikidataTokenizer.decode` followed by `.get_query()`
(src/query_tools/base_tokenizer.py, lines 50-66 and 89-99): back regex
rules in order, literal rules in order (keys are regex-metacharacter-free,
so `re.sub(key, rule)` is a literal replacement), the Wikidata correction
pass, and the final `strip` of `get_query`. -/
def wikidataDecodeQuery (s : Str) : Str :=
  let q := subPlaceholderBack s
  let q := subNumDotBack q
  let q := subApstrphBack q
  let q := replaceAll "math_gt".toList " > ".toList q
  let q := replaceAll "math_lt".toList " < ".toList q
  let q := replaceAll "math_eq".toList " = ".toList q
  let q := WIKIDATA_REPLACE_RULES.foldl (fun t kr => replaceAll kr.1 kr.2 t) q
  stripWs (wikidataCorrection q)

/-- Split a text into its whitespace-delimited words. -/
def splitWsGo : Nat → Str → Words
  | _, [] => []
  | 0, _ => []
  | gas + 1, c :: rest =>
    if isWs c then splitWsGo gas rest
    else ((c :: rest).takeWhile (fun d => ! isWs d)) ::
      splitWsGo gas ((c :: rest).dropWhile (fun d => ! isWs d))

def splitWs (s : Str) : Words := splitWsGo s.length s

/-- Equality of texts up to whitespace normalization and casing: compare
the lower-cased word lists. -/
def textNorm (s : Str) : Words := splitWs (toLowerStr s)

/-- The round-trip scenario of the spec (and of the repository test
`testWikidataTokenizer`). -/
def scenarioQuery : Str :=
  "SELECT DISTINCT ?uri WHERE \x7b wd:Q4072104 wdt:P184 ?uri \x7d".toList

def scenarioTokens : Str :=
  "select distinct var_uri where brack_open wd_q4072104 wdt_p184 var_uri brack_close".toList

def scenarioDecoded : Str :=
  "select distinct ?uri where \x7b wd:Q4072104 wdt:P184 ?uri \x7d".toList

/-- A query whose variable names contain the reserved token `var_`: the
literal rule `var_ ↦ ?` of `decode` rewrites `var_var_x` (the encoding of
`?var_x`) to `??x`. -/
def collidingQuery : Str :=
  "select ?var_x where \x7b ?var_x wdt:P1 wd:Q1 \x7d".toList

/-! ## Resource model (src/query_tools/resources.py, mapping/mapper/base_mapper.py) -/

/-- A classified resource: short prefix, long-form URI prefix, local name
(`Resource.__init__`, src/query_tools/resources.py, lines 43-46). -/
structure Resource where
  pfx : Str
  upfx : Str
  name : Str
deriving DecidableEq, Repr

/-- `Resource.get` (src/query_tools/resources.py, lines 48-52):
`prefix:name` when compressed, `<uriName>` when not. -/
def Resource.get (r : Resource) (compressed : Bool) : Str :=
  if compressed then r.pfx ++ ':' :: r.name
  else '<' :: r.upfx ++ r.name ++ ['>']

/-- `ResourceHelper.is_compress`/`get_resource_name` for the compressed
pattern `^{short}:(\S+)$`: the input is the short prefix, a colon, and a
nonempty whitespace-free local name. -/
def matchShort (pfx : Str) (s : Str) : Option Str :=
  if (pfx ++ [':']).isPrefixOf s then
    let name := s.drop (pfx.length + 1)
    if name ≠ [] ∧ name.all (fun c => ! isWs c) then some name else none
  else none

/-- `ResourceHelper.is_decompressed`/`get_resource_name` for the
decompressed pattern `^<?{re.escape(uri)}([^\s>]+)>?$`: an optional `<`,
the URI prefix, a nonempty run of characters that are neither whitespace
nor `>`, and an optional trailing `>`. -/
def matchUri (u : Str) (s : Str) : Option Str :=
  let s1 := if s.head? = some '<' then s.tail else s
  if u.isPrefixOf s1 then
    let r := s1.drop u.length
    let run := r.takeWhile (fun c => ! (isWs c || c = '>'))
    let after := r.dropWhile (fun c => ! (isWs c || c = '>'))
    if run ≠ [] ∧ (after = [] ∨ after = ['>']) then some run else none
  else none

/-- One family constructor (`Resource.__init__` through `ResourceHelper.
get_resource_name`): `none` models the `ResourceError` raised when neither
pattern matches. -/
def familyCtor (pu : Str × Str) (s : Str) : Option Resource :=
  match matchShort pu.1 s with
  | some n => some ⟨pu.1, pu.2, n⟩
  | none => (matchUri pu.2 s).map (fun n => ⟨pu.1, pu.2, n⟩)

/-- The registry `RESOURCES_DICT` (src/query_tools/resources.py), in
registration order, with the URI prefixes from `WIKIDATA_PREFIXES` and
`DBPEDIA_PREFIXES`. -/
def RESOURCES_DICT : List (Str × Str) := [
  ("wd".toList, "http://www.wikidata.org/entity/".toList),
  ("wdt".toList, "http://www.wikidata.org/prop/direct/".toList),
  ("p".toList, "http://www.wikidata.org/prop/".toList),
  ("ps".toList, "http://www.wikidata.org/prop/statement/".toList),
  ("pq".toList, "http://www.wikidata.org/prop/qualifier/".toList),
  ("dbr".toList, "http://dbpedia.org/resource/".toList),
  ("res".toList, "http://dbpedia.org/resource/".toList),
  ("dbp".toList, "http://dbpedia.org/property/".toList),
  ("dbo".toList, "http://dbpedia.org/ontology/".toList),
  ("schema".toList, "http://schema.org/".toList),
  ("rdfs".toList, "http://www.w3.org/2000/01/rdf-schema#".toList),
  ("wiki".toList, "https://en.wikipedia.org/wiki/".toList)]

/-- The anchored match of `get_prefix`'s URI pattern
`<?(http(?:s)?://(?:[^/]+/)+)([\w\d()]*)>?` (mapping/mapper/base_mapper.py):
an optional `<`, `http://` or `https://`, and at least one nonempty
`/`-terminated segment (the trailing groups match the empty string, so the
anchored match succeeds as soon as one segment is found). -/
def uriPatternOk (s : Str) : Bool :=
  let s1 := if s.head? = some '<' then s.tail else s
  let core := if ("https://".toList).isPrefixOf s1 then some (s1.drop 8)
    else if ("http://".toList).isPrefixOf s1 then some (s1.drop 7) else none
  match core with
  | none => false
  | some r => r.head?.any (fun c => c ≠ '/') && r.any (fun c => c = '/')

/-- The anchored match of `get_prefix`'s prefix pattern `(\w+):(\S+)`: a
nonempty word run, a colon, and at least one non-whitespace character. -/
def prefixPatternMatchOk (s : Str) : Bool :=
  match s.dropWhile isWordChar with
  | ':' :: d :: _ => (s.takeWhile isWordChar ≠ []) && ! isWs d
  | _ => false

/-- `get_prefix` succeeds without an exception: either the URI pattern
matches at the start, or the prefix pattern matches at the start.  (When
the prefix pattern occurs only later in the string, `get_prefix` raises
`AttributeError`; when neither occurs, it raises `TypeError`; both abort
`create_resource`, which we model as `none` below.) -/
def getPrefixOk (s : Str) : Bool := uriPatternOk s || prefixPatternMatchOk s

/-- `Resource.create_resource` (src/query_tools/resources.py, lines 63-71):
call `get_prefix`, then return the first registry family whose constructor
does not raise; `none` models both a `get_prefix` exception and the final
`ResourceNotSupportedException`. -/
def createResource (s : Str) : Option Resource :=
  if getPrefixOk s then RESOURCES_DICT.findSome? (fun pu => familyCtor pu s)
  else none

/-- A resource whose local name contains `>`: constructible from the
compressed notation, but its decompressed rendering is unclassifiable. -/
def gtNameResource : Resource :=
  ⟨"wd".toList, "http://www.wikidata.org/entity/".toList, "Q1>2".toList⟩

/-! ## Slot filling (src/slot_filling/qa_slot_filling_helper.py,
src/dataset_tools/dataset/normalizer.py)

The sentinel-driven deque loops of the Force helper are embedded with an
explicit gas budget and an `Option` result: `none` models both gas
exhaustion (shown unreachable at the chosen budgets, claim C10) and the
`IndexError` of a `popleft` from an empty deque (shown unreachable in the
totality theorem). -/

/-- Python `pat in s` for strings: contiguous substring containment. -/
def containsSub (pat : Str) : Str → Bool
  | [] => pat.isEmpty
  | c :: rest => pat.isPrefixOf (c :: rest) || containsSub pat rest

/-- Runs of non-alphanumeric characters become one space
(`re.sub(r"[^a-zA-Z0-9]+", " ", s)`). -/
def collapseNonAlnumGo : Nat → Str → Str
  | _, [] => []
  | 0, s => s
  | gas + 1, c :: rest =>
    if c.isAlphanum then c :: collapseNonAlnumGo gas rest
    else ' ' :: collapseNonAlnumGo gas ((c :: rest).dropWhile (fun d => ! d.isAlphanum))

def collapseNonAlnum (s : Str) : Str := collapseNonAlnumGo s.length s

/-- `Normalizer.normalize_question` (src/dataset_tools/dataset/normalizer.py,
lines 21-33): lower-case, strip, NFD accent stripping (the identity on the
ASCII texts modelled here), collapse non-alphanumeric runs to single
spaces, the literal rule `s\x7b2, \x7d ↦ ' '` (Python treats `s{2, }` as a
literal pattern because of the space inside the braces), and strip. -/
def normalize_question (s : Str) : Str :=
  let t := stripWs (toLowerStr s)
  let t := collapseNonAlnum t
  let t := replaceAll ("s\x7b2, \x7d".toList) (" ".toList) t
  stripWs t

/-- An entity mention as consumed by the slot-filling helpers; only the
`label` and `url` fields are read there. -/
structure Mention where
  label : Str
  url : Str
deriving DecidableEq, Repr

/-- `ForceQueryGenerationSlotFillingHelper.digit`: the first `(\d+)` run as
a number, `100` when there is none. -/
def digitOf (s : Str) : Nat :=
  let run := (s.dropWhile (fun c => ! c.isDigit)).takeWhile Char.isDigit
  if run.isEmpty then 100
  else run.foldl (fun acc c => acc * 10 + (c.toNat - 48)) 0

/-- `ForceQueryGenerationSlotFillingHelper.triple_position`: the first
match of `(sbj|obj|type)`, else `other`. -/
def triplePosition : Str → Str
  | [] => "other".toList
  | c :: rest =>
    if ("sbj".toList).isPrefixOf (c :: rest) then "sbj".toList
    else if ("obj".toList).isPrefixOf (c :: rest) then "obj".toList
    else if ("type".toList).isPrefixOf (c :: rest) then "type".toList
    else triplePosition rest

/-- `['sbj', 'obj', 'type', 'other'].index(...)` for the values
`triple_position` can produce. -/
def slotsOptsIndex (s : Str) : Nat :=
  if s = "sbj".toList then 0
  else if s = "obj".toList then 1
  else if s = "type".toList then 2
  else 3

/-- `sorted_remaining_slots`: stable sort of `(label, placeholder)` pairs
by `(digit(placeholder), slots_opts.index(triple_position(placeholder)))`,
ascending (Python `sorted` is a stable sort; a stable sort under this
total preorder is unique, so Mathlib's stable `insertionSort` models it
exactly). -/
def sortedRemainingSlots (items : List (Str × Str)) : List (Str × Str) :=
  List.insertionSort (fun a b =>
    digitOf a.2 < digitOf b.2 ∨ (digitOf a.2 = digitOf b.2 ∧
      slotsOptsIndex (triplePosition a.2) ≤ slotsOptsIndex (triplePosition b.2)))
    items

/-- `'.'.join(label.split(' '))`: every single space becomes a dot. -/
def joinDots (label : Str) : Str := label.map (fun c => if c = ' ' then '.' else c)

/-- An entry of the `remaining_entities` deque: a mention dict or the
`'<END>'` sentinel string appended by `search_valid_entity`. -/
inductive EntEntry where
  | endMark : EntEntry
  | ment : Mention → EntEntry
deriving DecidableEq, Repr

/-- The deque loop of `search_valid_entity`
(src/slot_filling/qa_slot_filling_helper.py, lines 88-105): pop; stop at
the sentinel; on an exact (`flexible = false`) or substring
(`flexible = true`) label match return the url and delete the sentinel;
otherwise re-append the entry behind the sentinel.  `none` = out of gas. -/
def searchLoopF (label : Str) (flexible : Bool) :
    Nat → List EntEntry → Option (Option Str × List EntEntry)
  | 0, _ => none
  | _ + 1, [] => some (none, [])
  | gas + 1, e :: q =>
    match e with
    | .endMark => some (none, q)
    | .ment m =>
      let elabel := normalize_question m.label
      if (!flexible && elabel = label) ||
          (flexible && (containsSub label elabel || containsSub elabel label)) then
        some (some m.url, q.eraseP (fun x => x = .endMark))
      else searchLoopF label flexible gas (q ++ [e])

/-- `search_valid_entity`: append the sentinel, run the loop with a
sufficient gas budget. -/
def search_valid_entity (label : Str) (ents : List Mention) (flexible : Bool) :
    Option (Option Str × List EntEntry) :=
  searchLoopF label flexible (ents.length + 2) (ents.map .ment ++ [.endMark])

/-- Strip the mention tags off a deque state (between calls the
`remaining_entities` deque holds only mention entries; the drain lemmas
show the sentinel is always removed before returning). -/
def entsOf (q : List EntEntry) : List Mention :=
  q.filterMap (fun e => match e with | .endMark => none | .ment m => some m)

/-- The inner `for label, placeholder in slots.items()` body of phase 1 of
`ForceQueryGenerationSlotFillingHelper.fill_template` (lines 123-144):
state is (query, audit, used slots, remaining entities, success). -/
def p1Pairs (slot : Str) :
    List (Str × Str) → Str → List (Str × Str) → List Str → List Mention → Bool →
    Option (Str × List (Str × Str) × List Str × List Mention × Bool)
  | [], query, audit, used, ents, success => some (query, audit, used, ents, success)
  | (label, ph) :: rest, query, audit, used, ents, success =>
    if ph ≠ slot then p1Pairs slot rest query audit used ents success
    else if ph = "<num>".toList then
      let numLabel := joinDots label
      p1Pairs slot rest (replaceAll ph numLabel query) (audit ++ [(ph, numLabel)])
        (used ++ [ph]) ents true
    else if ph = "<str_value>".toList then
      let strLabel := '\x27' :: label ++ ['\x27']
      p1Pairs slot rest (replaceAll ph strLabel query) (audit ++ [(ph, strLabel)])
        (used ++ [ph]) ents true
    else
      match search_valid_entity label ents false with
      | none => none
      | some (some url, q') =>
        p1Pairs slot rest (replaceAll ph url query) (audit ++ [(ph, url)])
          (used ++ [ph]) (entsOf q') true
      | some (none, q') => p1Pairs slot rest query audit used (entsOf q') success

/-- The literal `'<END>'` sentinel string used by the phase-1 queue. -/
def endTok : Str := "<END>".toList

/-- Phase 1 of `fill_template` (lines 112-146): the `slots_to_be_filled`
deque loop.  The sentinel is the literal string `<END>`; duplicates of
already-used slots are skipped; unfilled slots are re-appended behind the
sentinel and returned as the leftover queue. -/
def p1LoopF (slots : List (Str × Str)) :
    Nat → Str → List (Str × Str) → List Str → List Mention → List Str →
    Option (Str × List (Str × Str) × List Str × List Mention × List Str)
  | 0, _, _, _, _, _ => none
  | _ + 1, query, audit, used, ents, [] => some (query, audit, used, ents, [])
  | gas + 1, query, audit, used, ents, slot :: q =>
    if slot ∈ used then p1LoopF slots gas query audit used ents q
    else if slot = endTok then some (query, audit, used, ents, q)
    else
      match p1Pairs slot slots query audit used ents false with
      | none => none
      | some (query', audit', used', ents', success) =>
        if success then p1LoopF slots gas query' audit' used' ents' q
        else p1LoopF slots gas query' audit' used' ents' (q ++ [slot])

/-- An entry of the `remaining_slots_items` deque: a `(label, placeholder)`
tuple or the `'<END>'` sentinel string. -/
inductive SlotItem where
  | endMark : SlotItem
  | item : Str → Str → SlotItem
deriving DecidableEq, Repr

/-- The inner `remaining_slots_items` loop of phase 2 (lines 163-179): pop;
stop at the sentinel; skip (re-append) items that match the current slot
neither by digit nor by triple position; fuzzy-search the entities for the
item's label — on success fill the slot and delete the sentinel, on
failure drop the item. -/
def p2InnerF (slot : Str) :
    Nat → Str → List (Str × Str) → List Mention → List SlotItem →
    Option (Bool × Str × List (Str × Str) × List Mention × List SlotItem)
  | 0, _, _, _, _ => none
  | _ + 1, query, audit, ents, [] => some (false, query, audit, ents, [])
  | gas + 1, query, audit, ents, si :: q =>
    match si with
    | .endMark => some (false, query, audit, ents, q)
    | .item label ph =>
      if ¬ (digitOf slot = digitOf ph ∨ triplePosition slot = triplePosition ph) then
        p2InnerF slot gas query audit ents (q ++ [si])
      else
        match search_valid_entity label ents true with
        | none => none
        | some (some url, e') =>
          some (true, replaceAll slot url query, audit ++ [(slot, url)], entsOf e',
            q.eraseP (fun x => x = .endMark))
        | some (none, e') => p2InnerF slot gas query audit (entsOf e') q

/-- Phase 2 of `fill_template` (lines 147-184): drain the leftover
`slots_to_be_filled` queue; stop when no entities remain; with no slot
items left fill from the entity queue directly; otherwise run the inner
loop and, on failure, fill from the entity queue (`popleft` from an empty
deque — impossible here, cf. the totality theorem — is modelled as
`none`). -/
def p2LoopF :
    Nat → Str → List (Str × Str) → List Mention → List SlotItem → List Str →
    Option (Str × List (Str × Str) × List Mention)
  | 0, _, _, _, _, _ => none
  | _ + 1, query, audit, ents, _, [] => some (query, audit, ents)
  | gas + 1, query, audit, ents, items, slot :: q =>
    if ents.isEmpty then some (query, audit, ents)
    else if items.isEmpty then
      match ents with
      | [] => none
      | m :: ents' =>
        p2LoopF gas (replaceAll slot m.url query) (audit ++ [(slot, m.url)]) ents' items q
    else
      match p2InnerF slot (items.length + 2) query audit ents (items ++ [.endMark]) with
      | none => none
      | some (success, query', audit', ents', items') =>
        if success then p2LoopF gas query' audit' ents' items' q
        else
          match ents' with
          | [] => none
          | m :: ents'' =>
            p2LoopF gas (replaceAll slot m.url query') (audit' ++ [(slot, m.url)])
              ents'' items' q

/-- The placeholder scan `re.findall('<[\w\d_]+?>', query)`. -/
def findPlaceholdersGo : Nat → Str → List Str
  | _, [] => []
  | 0, _ => []
  | gas + 1, c :: rest =>
    if c = '<' then
      match rest.takeWhile isWordChar, rest.dropWhile isWordChar with
      | run@(_ :: _), '>' :: tail => ('<' :: run ++ ['>']) :: findPlaceholdersGo gas tail
      | _, _ => findPlaceholdersGo gas rest
    else findPlaceholdersGo gas rest

def findPlaceholders (s : Str) : List Str := findPlaceholdersGo s.length s

/-- `ForceQueryGenerationSlotFillingHelper.fill_template` (lines 107-184),
with the final remaining-entities state exposed for the specification of
claim C4.  `none` models gas exhaustion or an empty-deque `popleft`, both
shown unreachable. -/
def forceFillFull (template : Str) (slots : List (Str × Str)) (entities : List Mention) :
    Option (Str × List (Str × Str) × List Mention) :=
  let queue := findPlaceholders template ++ [endTok]
  match p1LoopF slots (queue.length + 1) template [] [] entities queue with
  | none => none
  | some (query, audit, used, ents, leftover) =>
    let items := sortedRemainingSlots (slots.filter (fun lp => lp.2 ∉ used))
    p2LoopF (leftover.length + 1) query audit ents (items.map (fun lp => .item lp.1 lp.2))
      leftover

/-- `ForceQueryGenerationSlotFillingHelper.fill_template`'s returned pair. -/
def forceFill (template : Str) (slots : List (Str × Str)) (entities : List Mention) :
    Option (Str × List (Str × Str)) :=
  (forceFillFull template slots entities).map (fun out => (out.1, out.2.1))

/-- `StandardQueryGenerationSlotFillingHelper.fill_template` (lines 41-71):
one pass over the slot mapping; skip placeholders already used or absent
from the current query; `<num>`/`<str_value>` substitute directly; otherwise
linear-scan the mentions for the first substring match.  `used_entities`
is updated exactly as in the source — and, as in the source, never read. -/
def standardFillGo (entities : List Mention) :
    List (Str × Str) → Str → List (Str × Str) → List Str → List Str →
    Str × List (Str × Str)
  | [], query, audit, _, _ => (query, audit)
  | (label, ph) :: rest, query, audit, usedS, usedE =>
    if ph ∈ usedS ∨ ¬ containsSub ph query then
      standardFillGo entities rest query audit usedS usedE
    else if ph = "<num>".toList then
      standardFillGo entities rest (replaceAll ph (joinDots label) query)
        (audit ++ [(ph, joinDots label)]) (usedS ++ [ph]) usedE
    else if ph = "<str_value>".toList then
      standardFillGo entities rest (replaceAll ph ('\x27' :: label ++ ['\x27']) query)
        (audit ++ [(ph, '\x27' :: label ++ ['\x27'])]) (usedS ++ [ph]) usedE
    else
      match (entities.find? (fun m =>
          let el := normalize_question m.label
          containsSub label el || containsSub el label)).map Mention.url with
      | some url =>
        standardFillGo entities rest (replaceAll ph url query) (audit ++ [(ph, url)])
          (usedS ++ [ph]) (usedE ++ [url])
      | none => standardFillGo entities rest query audit usedS usedE

def standardFill (template : Str) (slots : List (Str × Str)) (entities : List Mention) :
    Str × List (Str × Str) :=
  standardFillGo entities slots template [] [] []

/-- The Force slot-filling scenario of the spec. -/
def scenarioTemplate : Str := "ask where \x7b <sbj_1> wdt:P103 <obj_1> \x7d".toList

def scenarioSlots : List (Str × Str) :=
  [("john f kennedy".toList, "<sbj_1>".toList), ("old english".toList, "<obj_1>".toList)]

def scenarioMentions : List Mention :=
  [⟨"John F. Kennedy".toList, "wd:Q9696".toList⟩,
   ⟨"Old English".toList, "wd:Q42365".toList⟩]

def scenarioFilled : Str := "ask where \x7b wd:Q9696 wdt:P103 wd:Q42365 \x7d".toList

def scenarioAudit : List (Str × Str) :=
  [("<sbj_1>".toList, "wd:Q9696".toList), ("<obj_1>".toList, "wd:Q42365".toList)]

/-- Inputs on which the Standard helper reuses one mention for two slots:
both labels substring-match the single mention's label. -/
def dupTemplate : Str := "ask \x7b <sbj_1> wdt:P1 <obj_1> \x7d".toList

def dupSlots : List (Str × Str) :=
  [("abc".toList, "<sbj_1>".toList), ("ab".toList, "<obj_1>".toList)]

def dupMentions : List Mention := [⟨"abc".toList, "wd:Q1".toList⟩]

/-! ## Ensemble entity linking (src/entity_linking/ensemble_entity_linking_system.py,
src/entity_linking/voting_system.py, src/entity_linking/precision_priority_system.py)

Python floats appear only as sort keys and negations here, so score values
are modelled as `Int`; a score that is a string (the fallback
`output['score'] = entity_name` of `gather_results`) is `ScoreVal.strv`,
and any arithmetic or comparison on it (Python `TypeError`) is modelled as
`none`.  A missing dictionary key (`KeyError`), a failing `list.index`
(`ValueError`) and an out-of-range `score_list` access (`IndexError`) are
likewise `none`.  CPython's `sorted` computes every key before comparing,
so a single bad key aborts the whole call: the key lists are built first
(`keyOutputs` etc.) and any failure makes the surrounding function return
`none`. -/

/-- A score as stored under `output['score']`: a number, or the fallback
string `entity_name`. -/
inductive ScoreVal where
  | num (n : Int)
  | strv (s : Str)
deriving DecidableEq, Repr

/-- One output mention dictionary, with the keys read by the ensemble
systems.  `score_list = none` models a dict without the `'score_list'`
key, `score = none` one without `'score'`. -/
structure Annot where
  ini : Int
  fin : Int
  label : Str
  url : Str
  score_list : Option (List Int)
  score : Option ScoreVal
deriving DecidableEq, Repr

/-- One per-system entry of `results['annotations']`. -/
structure SysCase where
  system : Str
  output : List Annot
deriving DecidableEq, Repr

/-- `output['url'] if 'wd:' in output['url'] else ('wd:' + output['url'])`. -/
def entityNameOf (url : Str) : Str :=
  if containsSub ("wd:".toList) url then url else "wd:".toList ++ url

/-- `re.match(WIKIDATA_ENTITY_PATTERN, s)` with
`WIKIDATA_ENTITY_PATTERN = (?:wd):(?:[Q|P][\d]+)` (src/query_tools/
resources.py, line 80): anchored prefix match — `wd:`, one character from
the class `[Q|P]` (which contains the literal bar), then at least one
digit. -/
def wikidataEntityMatch (s : Str) : Bool :=
  match s with
  | 'w' :: 'd' :: ':' :: c :: d :: _ => (c = 'Q' || c = '|' || c = 'P') && d.isDigit
  | _ => false

/-- `re.match(r'Q(\d+)', s)` and `int(....group(1))`: the maximal leading
digit run after an initial `Q`, as a number. -/
def qIdMatch (s : Str) : Option Nat :=
  match s with
  | 'Q' :: rest =>
    let d := rest.takeWhile Char.isDigit
    if d = [] then none
    else some (d.foldl (fun acc c => acc * 10 + (c.toNat - 48)) 0)
  | _ => none

/-- The per-output score annotation of
`EnsembleEntityLinkingSystem.gather_results` (lines 66-82): without a
`score_list`, the score becomes the parsed `Q`-identifier or the entity
name itself; for `DBpedia Spotlight` the negated second list entry; else
the first list entry.  Python mutates `output` in place; the model returns
the updated dictionary. -/
def gatherScoreFix (system : Str) (a : Annot) : Option Annot :=
  let e := entityNameOf a.url
  match a.score_list with
  | none =>
    some { a with score := some (match qIdMatch e with
      | some n => ScoreVal.num (Int.ofNat n)
      | none => ScoreVal.strv e) }
  | some sl =>
    if system = "DBpedia Spotlight".toList then
      (sl[1]?).map (fun v => { a with score := some (ScoreVal.num (-v)) })
    else
      (sl[0]?).map (fun v => { a with score := some (ScoreVal.num v) })

/-- `gather_results`' inner loop over `case['output']`. -/
def fixOutputs (system : Str) : List Annot → Option (List Annot)
  | [] => some []
  | a :: rest =>
    match gatherScoreFix system a, fixOutputs system rest with
    | some a2, some r2 => some (a2 :: r2)
    | _, _ => none

/-- `EnsembleEntityLinkingSystem.gather_results`, restricted to the score
annotation it applies to `merged_data['annotations']` (the `uid`/`text`
fields are never touched). -/
def gather_results : List SysCase → Option (List SysCase)
  | [] => some []
  | c :: rest =>
    match fixOutputs c.system c.output, gather_results rest with
    | some o2, some r2 => some ({ c with output := o2 } :: r2)
    | _, _ => none

/-- Every field of an output dictionary except `score`. -/
def annotShell (a : Annot) : Int × Int × Str × Str × Option (List Int) :=
  (a.ini, a.fin, a.label, a.url, a.score_list)

/-- Every field of a per-system entry except the outputs' `score`s. -/
def caseShell (c : SysCase) : Str × List (Int × Int × Str × Str × Option (List Int)) :=
  (c.system, c.output.map annotShell)

/-- The sort key `-c_output['score'] if 'score' in c_output else 0` of
`VotingSystem.__gather_votes`; negating a string score raises. -/
def votesSortKey (a : Annot) : Option Int :=
  match a.score with
  | none => some 0
  | some (ScoreVal.num n) => some (-n)
  | some (ScoreVal.strv _) => none

/-- The upfront key computation of `sorted(case['output'], key=...)`. -/
def keyOutputs : List Annot → Option (List (Int × Annot))
  | [] => some []
  | a :: rest =>
    match votesSortKey a, keyOutputs rest with
    | some k, some ks => some ((k, a) :: ks)
    | _, _ => none

/-- `sorted(case['output'], key=lambda c_output: -c_output['score'] if
'score' in c_output else 0)`: a stable sort on the precomputed keys
(stable `insertionSort` models CPython's stable sort). -/
def sortOutputs (outs : List Annot) : Option (List Annot) :=
  (keyOutputs outs).map (fun keyed =>
    (List.insertionSort (fun x y => x.1 ≤ y.1) keyed).map Prod.snd)

/-- `entity_votes[entity_name] += 1` on a `Counter` kept in insertion
order. -/
def bumpVote : List (Str × Nat) → Str → List (Str × Nat)
  | [], e => [(e, 1)]
  | (k, n) :: rest, e =>
    if k = e then (k, n + 1) :: rest else (k, n) :: bumpVote rest e

/-- `entity_outputs_map.setdefault(entity_name, list()).append((system,
output))` on a dict kept in insertion order. -/
def pushPair : List (Str × List (Str × Annot)) → Str → Str × Annot →
    List (Str × List (Str × Annot))
  | [], e, p => [(e, [p])]
  | (k, l) :: rest, e, p =>
    if k = e then (k, l ++ [p]) :: rest else (k, l) :: pushPair rest e p

/-- The `if 'score' not in output:` backfill inside `__gather_votes`
(line 82, the TODO-marked duplicate of the `gather_results` logic). -/
def voteScoreFix (e : Str) (a : Annot) : Annot :=
  if a.score.isSome then a
  else { a with score := some (match qIdMatch e with
    | some n => ScoreVal.num (Int.ofNat n)
    | none => ScoreVal.strv e) }

/-- The vote-collecting inner loop of `__gather_votes` over one system's
sorted outputs. -/
def tallyOutputs : List Annot → Str → List (Str × Nat) →
    List (Str × List (Str × Annot)) →
    List (Str × Nat) × List (Str × List (Str × Annot))
  | [], _, votes, m => (votes, m)
  | a :: rest, sys, votes, m =>
    let e := entityNameOf a.url
    if wikidataEntityMatch e then
      tallyOutputs rest sys (bumpVote votes e) (pushPair m e (sys, voteScoreFix e a))
    else tallyOutputs rest sys votes m

/-- The outer loop of `VotingSystem.__gather_votes` over
`results_annotations`. -/
def gatherVotesGo : List SysCase → List (Str × Nat) →
    List (Str × List (Str × Annot)) →
    Option (List (Str × Nat) × List (Str × List (Str × Annot)))
  | [], votes, m => some (votes, m)
  | c :: rest, votes, m =>
    match sortOutputs c.output with
    | none => none
    | some outs =>
      gatherVotesGo rest (tallyOutputs outs c.system votes m).1
        (tallyOutputs outs c.system votes m).2

/-- `VotingSystem.__gather_votes` (src/entity_linking/voting_system.py,
lines 66-89). -/
def gatherVotes (cs : List SysCase) :
    Option (List (Str × Nat) × List (Str × List (Str × Annot))) :=
  gatherVotesGo cs [] []

/-- `Counter` lookup: the stored count, `0` for a missing key. -/
def votesFor : List (Str × Nat) → Str → Nat
  | [], _ => 0
  | (k, n) :: rest, e => if k = e then n else votesFor rest e

/-- Python `list.index`, as an `Option` (a `ValueError` is `none`). -/
def indexOfStr : List Str → Str → Option Nat
  | [], _ => none
  | x :: rest, s => if x = s then some 0 else (indexOfStr rest s).map (· + 1)

/-- The upfront key computation of `sorted(results['annotations'],
key=lambda a_case: self.system_priority.index(a_case['system']))` in
`PrecisionPrioritySystem.get_entity_extracted` (line 92). -/
def keyCases (sysPrio : List Str) : List SysCase → Option (List (Nat × SysCase))
  | [] => some []
  | c :: rest =>
    match indexOfStr sysPrio c.system, keyCases sysPrio rest with
    | some k, some ks => some ((k, c) :: ks)
    | _, _ => none

/-- The priority sort of the per-system entries; `none` when any system
name is missing from the priority list (the `ValueError` of `.index`
raised while the keys are computed, before anything is processed). -/
def sortCasesByPriority (sysPrio : List Str) (cs : List SysCase) :
    Option (List SysCase) :=
  (keyCases sysPrio cs).map (fun keyed =>
    (List.insertionSort (fun x y => x.1 ≤ y.1) keyed).map Prod.snd)

/-- The sort key `-output_case['score']` of the Priority system's inner
sort (line 94): `none` for a missing or string-valued score. -/
def negScoreKey (a : Annot) : Option Int :=
  match a.score with
  | some (ScoreVal.num n) => some (-n)
  | _ => none

/-- Upfront keys for the inner `sorted(case['output'], ...)`. -/
def keyOutputsNeg : List Annot → Option (List (Int × Annot))
  | [] => some []
  | a :: rest =>
    match negScoreKey a, keyOutputsNeg rest with
    | some k, some ks => some ((k, a) :: ks)
    | _, _ => none

/-- `sorted(case['output'], key=lambda output_case: -output_case['score'])`. -/
def sortOutputsByScore (outs : List Annot) : Option (List Annot) :=
  (keyOutputsNeg outs).map (fun keyed =>
    (List.insertionSort (fun x y => x.1 ≤ y.1) keyed).map Prod.snd)

/-- `PrecisionPrioritySystem._valid_entity` (lines 53-68). -/
def valid_entity (filterStop : Bool) (stop : List Str) (e : Str)
    (found : List Str) (lbl : Str) : Bool :=
  wikidataEntityMatch e && !(found.contains e) &&
    (!filterStop || !(stop.contains (toLowerStr lbl)))

/-- The fresh `data` dictionary appended to `summary` (lines 100-106): it
has no `'score'` key; reading `output['score_list']` must succeed. -/
def summaryEntry (e : Str) (a : Annot) (sl : List Int) : Annot :=
  { ini := a.ini, fin := a.fin, label := a.label, url := e,
    score_list := some sl, score := none }

/-- The Priority system's inner loop over one system's sorted outputs;
the `Bool` marks the early `return summary` (tiebreak cut, line 110). -/
def priorityInner (filterStop : Bool) (stop : List Str) (tiebreak : Bool)
    (numExp : Nat) :
    List Annot → List Annot → List Str → Option (List Annot × List Str × Bool)
  | [], summary, found => some (summary, found, false)
  | a :: rest, summary, found =>
    let e := entityNameOf a.url
    match (if valid_entity filterStop stop e found a.label then
            match a.score_list with
            | none => none
            | some sl => some (summary ++ [summaryEntry e a sl], found ++ [e])
          else some (summary, found) : Option (List Annot × List Str)) with
    | none => none
    | some (s2, f2) =>
      if tiebreak && decide (numExp ≤ s2.length) then some (s2, f2, true)
      else priorityInner filterStop stop tiebreak numExp rest s2 f2

/-- The Priority system's outer loop over the priority-sorted per-system
entries, with the `break` once `summary` is full (line 113). -/
def priorityOuter (filterStop : Bool) (stop : List Str) (tiebreak : Bool)
    (numExp : Nat) :
    List SysCase → List Annot → List Str → Option (List Annot)
  | [], summary, _ => some summary
  | c :: rest, summary, found =>
    match sortOutputsByScore c.output with
    | none => none
    | some outs =>
      match priorityInner filterStop stop tiebreak numExp outs summary found with
      | none => none
      | some (s2, f2, early) =>
        if early then some s2
        else if numExp ≤ s2.length then some s2
        else priorityOuter filterStop stop tiebreak numExp rest s2 f2

/-- `PrecisionPrioritySystem.get_entity_extracted` after `gather_results`
(src/entity_linking/precision_priority_system.py, lines 86-114). -/
def priorityExtract (sysPrio : List Str) (filterStop : Bool) (stop : List Str)
    (tiebreak : Bool) (numExp : Nat) (results : List SysCase) :
    Option (List Annot) :=
  match sortCasesByPriority sysPrio results with
  | none => none
  | some cs => priorityOuter filterStop stop tiebreak numExp cs [] []

/-- `VotingSystem.get_priority_and_score` (lines 55-64) as a sort key:
`(system_priority.index(system), -score)`; an unknown system or a missing
or string score raises. -/
def votingKey (sysPrio : List Str) (p : Str × Str × Annot) : Option (Nat × Int) :=
  match indexOfStr sysPrio p.2.1, p.2.2.score with
  | some i, some (ScoreVal.num n) => some (i, -n)
  | _, _ => none

/-- Upfront keys for `sorted(voted_entity_outputs, key=...)`. -/
def keyVotePairs (sysPrio : List Str) :
    List (Str × Str × Annot) → Option (List ((Nat × Int) × (Str × Str × Annot)))
  | [] => some []
  | p :: rest =>
    match votingKey sysPrio p, keyVotePairs sysPrio rest with
    | some k, some ks => some ((k, p) :: ks)
    | _, _ => none

/-- The Voting system's loop over one vote level's sorted
`(entity, (system, output))` pairs, tracking `prev_system`; the `Bool`
marks the early `return summary` (line 135). -/
def votingScan (filterStop : Bool) (stop : List Str) (tiebreak : Bool)
    (numExp : Nat) :
    List (Str × Str × Annot) → List Annot → List Str → Str →
    Option (List Annot × List Str × Bool)
  | [], summary, found, _ => some (summary, found, false)
  | (e, sys, a) :: rest, summary, found, prevSys =>
    if decide (numExp ≤ summary.length) && (tiebreak || decide (prevSys ≠ sys)) then
      some (summary, found, true)
    else
      if !(found.contains e) &&
          (!filterStop || !(stop.contains (toLowerStr a.label))) then
        match a.score_list with
        | none => none
        | some sl =>
          votingScan filterStop stop tiebreak numExp rest
            (summary ++ [summaryEntry e a sl]) (found ++ [e]) sys
      else votingScan filterStop stop tiebreak numExp rest summary found sys

/-- The Voting system's outer loop
`for num_votes in reversed(range(1, max_votes + 1))` (lines 117-148). -/
def votingLevels (sysPrio : List Str) (filterStop : Bool) (stop : List Str)
    (tiebreak : Bool) (numExp : Nat) (votes : List (Str × Nat))
    (m : List (Str × List (Str × Annot))) :
    Nat → List Annot → List Str → Option (List Annot)
  | 0, summary, _ => some summary
  | lvl + 1, summary, found =>
    let votedEntities := (votes.filter (fun p => decide (p.2 = lvl + 1))).map Prod.fst
    let pairs := (m.filter (fun p => votedEntities.contains p.1)).flatMap
      (fun p => p.2.map (fun q => (p.1, q.1, q.2)))
    match keyVotePairs sysPrio pairs with
    | none => none
    | some keyed =>
      match votingScan filterStop stop tiebreak numExp
          ((List.insertionSort
            (fun x y => x.1.1 < y.1.1 ∨ (x.1.1 = y.1.1 ∧ x.1.2 ≤ y.1.2))
            keyed).map Prod.snd) summary found [] with
      | none => none
      | some (s2, f2, early) =>
        if early then some s2
        else votingLevels sysPrio filterStop stop tiebreak numExp votes m lvl s2 f2

/-- `VotingSystem.get_entity_extracted` after `gather_results`
(src/entity_linking/voting_system.py, lines 102-149). -/
def votingExtract (sysPrio : List Str) (filterStop : Bool) (stop : List Str)
    (tiebreak : Bool) (numExp : Nat) (results : List SysCase) :
    Option (List Annot) :=
  match gatherVotes results with
  | none => none
  | some (votes, m) =>
    votingLevels sysPrio filterStop stop tiebreak numExp votes m
      ((votes.map Prod.snd).foldl Nat.max 0) [] []

/-- The default `system_priority` of both ensemble systems. -/
def defaultSystemPriority : List Str :=
  ["Aida".toList, "Open Tapioca".toList, "TAGME".toList,
   "DBpedia Spotlight".toList]

/-- One system mentioning the same Wikidata entity twice, with scores. -/
def dupVoteCase : SysCase :=
  ⟨"Aida".toList,
   [⟨0, 4, "dup".toList, "Q1".toList, some [7], some (ScoreVal.num 7)⟩,
    ⟨0, 4, "dup".toList, "Q1".toList, some [3], some (ScoreVal.num 3)⟩]⟩

/-- A per-system entry from a system missing from the priority list, with
no output mentions. -/
def ghostCase : SysCase := ⟨"Ghost".toList, []⟩

/-- An output without `score_list`, before and after `gather_results`. -/
def scorelessCase : SysCase :=
  ⟨"Aida".toList, [⟨0, 3, "abc".toList, "Q1".toList, none, none⟩]⟩

def scorelessCaseFixed : SysCase :=
  ⟨"Aida".toList,
   [⟨0, 3, "abc".toList, "Q1".toList, none,
     some (ScoreVal.strv ("wd:Q1".toList))⟩]⟩

/-- The `entity_outputs_map` that `__gather_votes` builds for
`dupVoteCase`. -/
def dupVoteOutputsMap : List (Str × List (Str × Annot)) :=
  [("wd:Q1".toList,
    [("Aida".toList, ⟨0, 4, "dup".toList, "Q1".toList, some [7],
        some (ScoreVal.num 7)⟩),
     ("Aida".toList, ⟨0, 4, "dup".toList, "Q1".toList, some [3],
        some (ScoreVal.num 3)⟩)])]

/-! ## Wikidata templates (src/templates/wikidata_template.py)

`get_slots` and `get_empty_query` are modelled over the query string
`str(self.query)` that both methods read (the shared
`WikidataQuery.normalized_query` preprocessing of `__init__` and the
compression inside `__str__` produce that same string for both, so the
comparison between the two methods is unaffected).  The triple pattern
`(?P<sbj>...)\s+(?P<prop>(\w+:P\d+)|(\w+:\w+)|[\^+*/])+\s+(?P<obj>...)`
needs real backtracking only inside the `(...)+` property part: the
subject/object alternatives start with the pairwise-distinct characters
`?`, `<`, `w`, every `\w+`/`\d+` run that is followed by a delimiter
outside its class is maximal-munch deterministic, and `\s+` is always
followed by a non-space alternative.  `propPlusF` therefore enumerates,
in Python's backtracking order, the candidate ways of matching one
repetition (first alternative with digit-run splits longest first, second
alternative with word-run splits longest first, then the symbol class)
and prefers more repetitions before closing the group, exactly as the
greedy `+` does; the named group `prop` holds the last repetition. -/

/-- Decimal rendering of a number, as in an f-string `\x7bidx\x7d`. -/
def natDigitsGo : Nat → Nat → Str
  | 0, _ => []
  | _, 0 => []
  | fuel + 1, n + 1 =>
    natDigitsGo fuel ((n + 1) / 10) ++ [Char.ofNat (48 + (n + 1) % 10)]

def natToStr (n : Nat) : Str := if n = 0 then ['0'] else natDigitsGo n n

/-- Reading a digit string back as a number (used to prove `natToStr`
injective). -/
def digitsVal (s : Str) : Nat := s.foldl (fun acc c => acc * 10 + (c.toNat - 48)) 0

/-- `f'<sbj_\x7bidx\x7d>'`. -/
def sbjTag (i : Nat) : Str := "<sbj_".toList ++ natToStr i ++ ['>']

/-- `f'<obj_\x7bidx\x7d>'`. -/
def objTag (i : Nat) : Str := "<obj_".toList ++ natToStr i ++ ['>']

/-- `'<type>' if len(type_entities) == 1 else
f'<type_\x7btype_entities.index(e) + 1\x7d>'` (the branch is dead under
`ignore_type=True`, where `type_entities` is empty). -/
def typeTag (typeEnts : List Str) (e : Str) : Str :=
  if typeEnts.length = 1 then "<type>".toList
  else "<type_".toList ++ natToStr ((indexOfStr typeEnts e).getD 0 + 1) ++ ['>']

/-- The subject/object alternative `\?\w+`. -/
def matchVar : Str → Option (Str × Str)
  | '?' :: rest =>
    let w := rest.takeWhile isWordChar
    if w = [] then none else some ('?' :: w, rest.drop w.length)
  | _ => none

/-- The subject/object alternative `<[\w\d_]+?>`: the lazy run can only
end at the first non-word character, which must be `>`. -/
def matchPh : Str → Option (Str × Str)
  | '<' :: rest =>
    let w := rest.takeWhile isWordChar
    if w = [] then none
    else match rest.drop w.length with
      | '>' :: r2 => some ('<' :: w ++ ['>'], r2)
      | _ => none
  | _ => none

/-- The subject/object alternative `wd:Q\d+`. -/
def matchWdQ : Str → Option (Str × Str)
  | 'w' :: 'd' :: ':' :: 'Q' :: rest =>
    let d := rest.takeWhile Char.isDigit
    if d = [] then none else some ("wd:Q".toList ++ d, rest.drop d.length)
  | _ => none

/-- The full subject/object alternation (first-character disjoint, so the
alternative choice is deterministic). -/
def matchSbjObj (s : Str) : Option (Str × Str) :=
  match matchVar s with
  | some r => some r
  | none =>
    match matchPh s with
    | some r => some r
    | none => matchWdQ s

/-- `\s+` followed by a non-space token: the maximal whitespace run. -/
def matchWsPlus (s : Str) : Option Str :=
  let w := s.takeWhile isWs
  if w = [] then none else some (s.drop w.length)

/-- All ways, in Python's backtracking order, of matching one repetition
of `(\w+:P\d+)|(\w+:\w+)|[\^+*/]` at the start of `s`, each as
`(consumed, rest)`. -/
def propRepCandidates (s : Str) : List (Str × Str) :=
  let w := s.takeWhile isWordChar
  let aCands :=
    if w = [] then []
    else
      match s.drop w.length with
      | ':' :: r2 =>
        (match r2 with
         | 'P' :: r3 =>
           let d := r3.takeWhile Char.isDigit
           (List.range d.length).map (fun k =>
             let dl := d.length - k
             (w ++ ':' :: 'P' :: d.take dl, d.drop dl ++ r3.drop d.length))
         | _ => []) ++
        (let w2 := r2.takeWhile isWordChar
         (List.range w2.length).map (fun k =>
           let wl := w2.length - k
           (w ++ ':' :: w2.take wl, w2.drop wl ++ r2.drop w2.length)))
      | _ => []
  aCands ++
    (match s with
     | c :: r => if c = '^' ∨ c = '+' ∨ c = '*' ∨ c = '/' then [([c], r)] else []
     | [] => [])

/-- After the property group: `\s+` then the object, ending the pattern. -/
def matchRestObj (s : Str) : Option (Str × Str) :=
  match matchWsPlus s with
  | none => none
  | some r => matchSbjObj r

/-- The greedy `(...)+` over the property alternation with full
backtracking: per repetition try each candidate in order, preferring one
more repetition over closing the group; returns the last repetition (the
captured `prop` group), the object and the rest.  Every repetition
consumes at least one character, so `s.length + 1` gas suffices. -/
def propPlusF : Nat → Str → Option (Str × Str × Str)
  | 0, _ => none
  | fuel + 1, s =>
    (propRepCandidates s).findSome? (fun c =>
      match propPlusF fuel c.2 with
      | some out => some out
      | none => (matchRestObj c.2).map (fun o => (c.1, o.1, o.2)))

/-- One anchored match of the query-triple pattern, as
`((sbj, prop, obj), rest after the match)`. -/
def tripleAt (s : Str) : Option ((Str × Str × Str) × Str) :=
  match matchSbjObj s with
  | none => none
  | some (sbj, r1) =>
    match matchWsPlus r1 with
    | none => none
    | some r2 =>
      match propPlusF (r2.length + 1) r2 with
      | none => none
      | some (prp, o, rest) => some ((sbj, prp, o), rest)

/-- `finditer`: leftmost non-overlapping matches, scanning forward. -/
def tripleScanGo : Nat → Str → List (Str × Str × Str)
  | 0, _ => []
  | _, [] => []
  | fuel + 1, c :: t =>
    match tripleAt (c :: t) with
    | some (tr, rest) => tr :: tripleScanGo fuel rest
    | none => tripleScanGo fuel t

/-- `WikidataQueryPatternHelper.get_query_triples_matches().finditer(q)`;
the iterator is created on the original string, so the loops of
`get_slots`/`get_empty_query` see these triples even while `query_string`
is rebound. -/
def tripleScan (q : Str) : List (Str × Str × Str) := tripleScanGo q.length q

/-- One anchored match of `(?:wd):(?:[Q|P][\d]+)` (the class `[Q|P]`
contains the literal bar). -/
def wdEntAt : Str → Option (Str × Str)
  | 'w' :: 'd' :: ':' :: c :: rest =>
    if c = 'Q' ∨ c = '|' ∨ c = 'P' then
      let d := rest.takeWhile Char.isDigit
      if d = [] then none else some ("wd:".toList ++ c :: d, rest.drop d.length)
    else none
  | _ => none

def findallWdGo : Nat → Str → List Str
  | 0, _ => []
  | _, [] => []
  | fuel + 1, c :: t =>
    match wdEntAt (c :: t) with
    | some (m, rest) => m :: findallWdGo fuel rest
    | none => findallWdGo fuel t

/-- `WIKIDATA_ENTITY_PATTERN.findall(q)`. -/
def findallWd (q : Str) : List Str := findallWdGo q.length q

/-- `[str(Resource.create_resource(e)) for e in findall(...)]`
(`WikidataQuery.entities` through `Resource.__str__`); `none` models a
`create_resource` exception aborting the property access. -/
def entitiesOfQuery (q : Str) : Option (List Str) :=
  (findallWd q).mapM (fun s =>
    if getPrefixOk s then (createResource s).map (fun r => r.get true) else none)

/-- `re.subn(entity_name + '(?=[.\s}])', placeholder, q)`: replace every
occurrence of the entity text that is followed by `.`, whitespace or `}`
(the lookahead consumes nothing); the entity text is treated literally
(entity names matched from queries contain no regex metacharacters other
than a possible `|` from the `[Q|P]` class, which is out of the modelled
scope). -/
def subEntGo (e ph : Str) : Nat → Str → Str
  | 0, s => s
  | _, [] => []
  | fuel + 1, c :: t =>
    if e.isPrefixOf (c :: t) ∧ e ≠ [] then
      match ((c :: t).drop e.length).head? with
      | some c2 =>
        if c2 = '.' ∨ isWs c2 ∨ c2 = '}' then
          ph ++ subEntGo e ph fuel ((c :: t).drop e.length)
        else c :: subEntGo e ph fuel t
      | none => c :: subEntGo e ph fuel t
    else c :: subEntGo e ph fuel t

def subEnt (e ph q : Str) : Str := subEntGo e ph q.length q

/-- Python dict assignment `d[k] = v`: overwrite in place, else append. -/
def dictInsert (d : List (Str × Str)) (k v : Str) : List (Str × Str) :=
  if d.any (fun p => p.1 = k) then
    d.map (fun p => if p.1 = k then (k, v) else p)
  else d ++ [(k, v)]

/-- `set(entities)` iterated: deduplication (CPython's set order is
unspecified; the model fixes first-occurrence order, which the claims
here do not depend on). -/
def dedupFirstGo : List Str → List Str → List Str
  | [], _ => []
  | x :: rest, seen =>
    if seen.contains x then dedupFirstGo rest seen
    else x :: dedupFirstGo rest (x :: seen)

def dedupFirst (l : List Str) : List Str := dedupFirstGo l []

/-- One entity iteration of the `get_slots` triple loop (the `elif`
chain), over the state `(query_string, slot_dict, added_entities)`. -/
def slotsEntStep (typeEnts : List Str) (caseTr : Str × Str × Str) (idx : Nat)
    (st : Str × List (Str × Str) × List Str) (e : Str) :
    Str × List (Str × Str) × List Str :=
  if st.2.2.contains e then st
  else if typeEnts.contains e then
    (subEnt e (typeTag typeEnts e) st.1,
     dictInsert st.2.1 e (typeTag typeEnts e), st.2.2 ++ [e])
  else if caseTr.1 = e then
    (subEnt e (sbjTag idx) st.1, dictInsert st.2.1 e (sbjTag idx), st.2.2 ++ [e])
  else if caseTr.2.2 = e then
    (subEnt e (objTag idx) st.1, dictInsert st.2.1 e (objTag idx), st.2.2 ++ [e])
  else st

/-- `for idx, case in enumerate(finditer(...), 1): for entity in entities`. -/
def slotsTriplesGo (typeEnts : List Str) (ents : List Str) :
    List (Str × Str × Str) → Nat → (Str × List (Str × Str) × List Str) →
    Str × List (Str × Str) × List Str
  | [], _, st => st
  | tr :: rest, idx, st =>
    slotsTriplesGo typeEnts ents rest (idx + 1)
      (ents.foldl (slotsEntStep typeEnts tr idx) st)

/-- A match of `'(.*?)'` starting at `s`: the lazy body stops at the
nearest quote, and `.` does not cross a newline. -/
def strValueMatch : Str → Option (Str × Str)
  | '\'' :: rest =>
    let content := rest.takeWhile (fun c => ¬ (c = '\'' ∨ c = '\n'))
    match rest.drop content.length with
    | '\'' :: r2 => some (content, r2)
    | _ => none
  | _ => none

/-- `STRING_VALUE_PATTERN.sub('<str_value>', q, count=1)` plus the
`search` for the first group. -/
def strValuesFixGo : Nat → Str → Str × Option Str
  | 0, s => (s, none)
  | _, [] => ([], none)
  | fuel + 1, c :: t =>
    match strValueMatch (c :: t) with
    | some (content, rest) => ("<str_value>".toList ++ rest, some content)
    | none =>
      let r := strValuesFixGo fuel t
      (c :: r.1, r.2)

/-- `WikidataQueryPatternHelper.str_values_fix` (lines 105-111). -/
def str_values_fix (q : Str) : Str × Option Str := strValuesFixGo q.length q

/-- `(?<=LIMIT|limit)(?P<limit>\s+\d+)` substituted everywhere, returning
the first match's group (leading whitespace included); `pre` is the
reversed consumed prefix for the fixed-width lookbehind. -/
def limitSubGo : Nat → Str → Str → Str × Option Str
  | 0, _, s => (s, none)
  | _, _, [] => ([], none)
  | fuel + 1, pre, c :: t =>
    if (pre.take 5 = "TIMIL".toList ∨ pre.take 5 = "timil".toList) ∧ isWs c then
      let w := (c :: t).takeWhile isWs
      let d := ((c :: t).drop w.length).takeWhile Char.isDigit
      if d = [] then
        let r := limitSubGo fuel (c :: pre) t
        (c :: r.1, r.2)
      else
        let m := w ++ d
        let r := limitSubGo fuel (m.reverse ++ pre) ((c :: t).drop m.length)
        ("<limit>".toList ++ r.1, some m)
    else
      let r := limitSubGo fuel (c :: pre) t
      (c :: r.1, r.2)

/-- One anchored match of the number body
`[-t]?(\d+)(\.\d+)?(e[+-]?\d+)?` (each optional group is greedy and has
no continuation that could force backtracking). -/
def numCore (r : Str) : Option (Str × Str) :=
  let d := r.takeWhile Char.isDigit
  if d = [] then none
  else
    let r1 := r.drop d.length
    let fr :=
      match r1 with
      | '.' :: rr =>
        let d2 := rr.takeWhile Char.isDigit
        if d2 = [] then (([] : Str), r1) else ('.' :: d2, rr.drop d2.length)
      | _ => ([], r1)
    let ex :=
      match fr.2 with
      | 'e' :: rr =>
        (match rr with
         | '+' :: rr2 =>
           let d3 := rr2.takeWhile Char.isDigit
           if d3 = [] then (([] : Str), fr.2)
           else ('e' :: '+' :: d3, rr2.drop d3.length)
         | '-' :: rr2 =>
           let d3 := rr2.takeWhile Char.isDigit
           if d3 = [] then (([] : Str), fr.2)
           else ('e' :: '-' :: d3, rr2.drop d3.length)
         | _ =>
           let d3 := rr.takeWhile Char.isDigit
           if d3 = [] then (([] : Str), fr.2) else ('e' :: d3, rr.drop d3.length))
      | _ => ([], fr.2)
    some (d ++ fr.1 ++ ex.1, ex.2)

def numMatchAt (s : Str) : Option (Str × Str) :=
  match s with
  | c :: t =>
    if c = '-' ∨ c = 't' then
      match numCore t with
      | some (m, r) => some (c :: m, r)
      | none => none
    else numCore s
  | [] => none

/-- `NUMBER_PATTERN.sub('<num>', q)` with the single-character lookbehind
`(?<=[^_\w])` checked against the original text, plus the first match. -/
def numberSubGo : Nat → Option Char → Str → Str × Option Str
  | 0, _, s => (s, none)
  | _, _, [] => ([], none)
  | fuel + 1, prev, c :: t =>
    match prev with
    | some pc =>
      if ¬ isWordChar pc then
        match numMatchAt (c :: t) with
        | some (m, rest) =>
          let r := numberSubGo fuel m.getLast? rest
          ("<num>".toList ++ r.1, some m)
        | none =>
          let r := numberSubGo fuel (some c) t
          (c :: r.1, r.2)
      else
        let r := numberSubGo fuel (some c) t
        (c :: r.1, r.2)
    | none =>
      let r := numberSubGo fuel (some c) t
      (c :: r.1, r.2)

/-- `WikidataQueryPatternHelper.number_fix` (lines 114-136): substitute
`<limit>`, substitute every number, then restore the limit text. -/
def number_fix (q : Str) : Str × Option Str :=
  let l := limitSubGo q.length [] q
  let n := numberSubGo l.1.length none l.1
  match l.2 with
  | none => (n.1, n.2)
  | some lim => (replaceAll ("<limit>".toList) lim n.1, n.2)

/-- `WikidataTemplate.get_slots(ignore_type=True)` (lines 239-276) over
the template's stored query string. -/
def get_slots (q : Str) : Option (List (Str × Str)) :=
  match entitiesOfQuery q with
  | none => none
  | some ents =>
    let st := slotsTriplesGo [] ents (tripleScan q) 1 (q, [], [])
    let sv := str_values_fix st.1
    let d2 := match sv.2 with
      | some s => if s = [] then st.2.1 else dictInsert st.2.1 s ("<str_value>".toList)
      | none => st.2.1
    let nm := number_fix sv.1
    let d3 := match nm.2 with
      | some n => if n = [] then d2 else dictInsert d2 n ("<num>".toList)
      | none => d2
    some d3

/-- One entity iteration of the `get_empty_query` triple loop: the three
independent `if`s (subject and object can both fire), `count=0` replacing
every occurrence, over `(query_string, added_entities)`. -/
def emptyEntStep (typeEnts : List Str) (caseTr : Str × Str × Str) (idx : Nat)
    (st : Str × List Str) (e : Str) : Str × List Str :=
  if st.2.contains e then st
  else
    let st1 := if typeEnts.contains e then
        (subEnt e (typeTag typeEnts e) st.1, st.2 ++ [e])
      else st
    let st2 := if caseTr.1 = e then
        (subEnt e (sbjTag idx) st1.1, st1.2 ++ [e])
      else st1
    if caseTr.2.2 = e then
      (subEnt e (objTag idx) st2.1, st2.2 ++ [e])
    else st2

def emptyTriplesGo (typeEnts : List Str) (ents : List Str) :
    List (Str × Str × Str) → Nat → (Str × List Str) → Str × List Str
  | [], _, st => st
  | tr :: rest, idx, st =>
    emptyTriplesGo typeEnts ents rest (idx + 1)
      (ents.foldl (emptyEntStep typeEnts tr idx) st)

/-- The property alternative of `lcquad2_template_fix`:
`(\w+:P\d+)|(<[\w\d_]+?>)`. -/
def tfixProp (s : Str) : Option (Str × Str) :=
  let w := s.takeWhile isWordChar
  match (if w = [] then none else
    match s.drop w.length with
    | ':' :: 'P' :: r2 =>
      let d := r2.takeWhile Char.isDigit
      if d = [] then none else some (w ++ ':' :: 'P' :: d, r2.drop d.length)
    | _ => none : Option (Str × Str)) with
  | some r => some r
  | none => matchPh s

/-- One anchored match of the `lcquad2_template_fix` pattern
`}\s+(?P<sbj>\?\w+)\s+(?P<prop>...)\s+(?P<obj><[\w\d_]+?>)`, returning
the replacement `'. sbj prop obj }'` and the rest. -/
def templateFixAt : Str → Option (Str × Str)
  | '}' :: r =>
    match matchWsPlus r with
    | none => none
    | some r1 =>
      match matchVar r1 with
      | none => none
      | some (sbj, r2) =>
        match matchWsPlus r2 with
        | none => none
        | some r3 =>
          match tfixProp r3 with
          | none => none
          | some (prp, r4) =>
            match matchWsPlus r4 with
            | none => none
            | some r5 =>
              match matchPh r5 with
              | none => none
              | some (obj, r6) =>
                some (". ".toList ++ sbj ++ ' ' :: prp ++ ' ' :: obj ++ " \x7d".toList, r6)
  | _ => none

def templateFixGo : Nat → Str → Str
  | 0, s => s
  | _, [] => []
  | fuel + 1, c :: t =>
    match templateFixAt (c :: t) with
    | some (rep, rest) => rep ++ templateFixGo fuel rest
    | none => c :: templateFixGo fuel t

/-- `WikidataQueryFixer.lcquad2_template_fix` (lines 34-46). -/
def lcquad2_template_fix (q : Str) : Str := templateFixGo q.length q

/-- `re.subn(r'\x7b', 'where \x7b', q, count=1)[0]`. -/
def subFirstBrace : Nat → Str → Str
  | 0, s => s
  | _, [] => []
  | fuel + 1, c :: t =>
    if c = '{' then "where ".toList ++ '{' :: t else c :: subFirstBrace fuel t

/-- `WikidataQueryFixer.add_where_after_count` (lines 70-74). -/
def add_where_after_count (q : Str) : Str :=
  if containsSub ("where".toList) (toLowerStr q) then q
  else subFirstBrace q.length q

/-- `WikidataTemplate.get_empty_query(ignore_type=True)` with the default
`remove_properties=False`, `normalize=False` (lines 177-231), over the
template's stored query string. -/
def get_empty_query (q : Str) : Option Str :=
  match entitiesOfQuery q with
  | none => none
  | some ents =>
    let st := emptyTriplesGo [] (dedupFirst ents) (tripleScan q) 1 (q, [])
    let q2 := replaceAll ("<prop_type>".toList) ("wdt:P31".toList) st.1
    let q3 := lcquad2_template_fix q2
    let q4 := (str_values_fix q3).1
    let q5 := (number_fix q4).1
    let q6 := replaceAll ("?X".toList) ("?obj".toList) q5
    let q7 := replaceAll ("?sub".toList) ("?sbj".toList) q6
    some (add_where_after_count q7)

/-- The C8 counterexample query and the template derived from it. -/
def c8Query : Str := "ask \x7b ?x wdt:P1 wd:Q5".toList

def c8Template : Str := "ask where \x7b ?x wdt:P1 wd:Q5".toList

/-! ## Claim theorems -/

/-- C1 (code bug): the claim says `compress`/`decompress` are mutual
inverses on well-formed queries.  On the compressed query of the
repository's own unit test `testWikidataQuery`,
`SELECT DISTINCT ?uri WHERE \x7b wd:Q4072104 wdt:P184 ?uri \x7d`
(all of whose resources are classifiable), `decompress` does not produce
the decompressed text the test asserts: the `p:(\S+)` rule of the
substitution fold re-matches inside the `http:` of the URIs produced by
the earlier `wd`/`wdt` rules and corrupts both resources, and
consequently `compress (decompress q) ≠ compress q`. -/
theorem c1_decompress_breaks_roundtrip :
    decompress WIKIDATA_PREFIXES testQueryCompressed = testQueryCorrupted ∧
    testQueryCorrupted ≠ testQueryDecompressed ∧
    compress WIKIDATA_PREFIXES (decompress WIKIDATA_PREFIXES testQueryCompressed) ≠
      compress WIKIDATA_PREFIXES testQueryCompressed := by
  exact ⟨by decide, by decide, by decide⟩

/-- C2 counterexample: the universal round-trip law fails.  For the
Wikidata query `select ?var_x where \x7b ?var_x wdt:P1 wd:Q1 \x7d` the
decode rule `var_ ↦ ?` also rewrites the `var_` that is part of the
original variable name, so `decode (encode q)` is
`select ??x where \x7b ??x wdt:P1 wd:Q1 \x7d`, which differs from `q`
even after whitespace normalization and lower-casing. -/
theorem c2_roundtrip_counterexample :
    textNorm (wikidataDecodeQuery (wikidataEncode collidingQuery)) ≠
      textNorm collidingQuery := by decide

/-- C2 (amended): the tokenizer scenario holds exactly as specified —
encoding `SELECT DISTINCT ?uri WHERE \x7b wd:Q4072104 wdt:P184 ?uri \x7d`
yields exactly the specified token string, decoding that token string
yields exactly `select distinct ?uri where \x7b wd:Q4072104 wdt:P184 ?uri
\x7d`, and hence `decode (encode q)` reproduces this query up to
whitespace normalization and canonical casing.  (The universal law is
amended to exclude queries whose text collides with the tokenizer's
reserved tokens, cf. `c2_roundtrip_counterexample`.) -/
theorem c2_tokenizer_scenario :
    wikidataEncode scenarioQuery = scenarioTokens ∧
    wikidataDecodeQuery scenarioTokens = scenarioDecoded ∧
    textNorm (wikidataDecodeQuery (wikidataEncode scenarioQuery)) =
      textNorm scenarioQuery := by
  exact ⟨by decide, by decide, by decide⟩

/-! ### Helper lemmas for the resource model -/

theorem isPrefixOf_append_of {p a : Str} (h : p.isPrefixOf a = true) (b : Str) :
    p.isPrefixOf (a ++ b) = true := by
  rw [List.isPrefixOf_iff_prefix] at h ⊢
  exact h.trans (List.prefix_append a b)

theorem not_isPrefixOf_of_le {p a : Str} (b : Str) (hle : p.length ≤ a.length)
    (h : p.isPrefixOf a = false) : p.isPrefixOf (a ++ b) = false := by
  rw [Bool.eq_false_iff] at h ⊢
  intro hp
  rw [List.isPrefixOf_iff_prefix] at hp
  exact h (List.isPrefixOf_iff_prefix.mpr
    (List.prefix_of_prefix_length_le hp (List.prefix_append a b) (by simpa using hle)))

theorem not_isPrefixOf_of_head_ne {p s : Str} {c d : Char} (hp : p.head? = some c)
    (hs : s.head? = some d) (hne : c ≠ d) : p.isPrefixOf s = false := by
  cases p with
  | nil => simp at hp
  | cons x xs =>
    cases s with
    | nil => simp at hs
    | cons y ys =>
      simp at hp hs
      subst hp; subst hs
      simp [List.isPrefixOf]
      intro hxy
      exact absurd hxy hne

theorem dropWhile_append_stop {p : Char → Bool} {a b : Str}
    (ha : ∀ c ∈ a, p c = true) (hb : ∀ c, b.head? = some c → p c = false) :
    (a ++ b).dropWhile p = b := by
  induction a with
  | nil =>
    cases b with
    | nil => rfl
    | cons y ys => simp [List.dropWhile, hb y rfl]
  | cons x xs ih =>
    simp only [List.cons_append, List.dropWhile, ha x (by simp)]
    exact ih (fun c hc => ha c (by simp [hc]))

theorem takeWhile_append_stop {p : Char → Bool} {a b : Str}
    (ha : ∀ c ∈ a, p c = true) (hb : ∀ c, b.head? = some c → p c = false) :
    (a ++ b).takeWhile p = a := by
  induction a with
  | nil =>
    cases b with
    | nil => rfl
    | cons y ys => simp [List.takeWhile, hb y rfl]
  | cons x xs ih =>
    simp only [List.cons_append, List.takeWhile, ha x (by simp)]
    simp only [List.cons.injEq, true_and]
    exact ih (fun c hc => ha c (by simp [hc]))

theorem drop_append_of_le {a b : Str} {k : Nat} (hk : k ≤ a.length) :
    (a ++ b).drop k = a.drop k ++ b := by
  rw [List.drop_append_eq_append_drop]
  have : k - a.length = 0 := by omega
  simp [this]

theorem eq_of_append_colon_pfx {g f : Str} (hg : ':' ∉ g) (hf : ':' ∉ f)
    (h : (g ++ [':']) <+: (f ++ [':'])) : g = f := by
  induction g generalizing f with
  | nil =>
    cases f with
    | nil => rfl
    | cons d fs =>
      exfalso
      simp only [List.nil_append, List.cons_append] at h
      rcases h with ⟨t, ht⟩
      simp only [List.singleton_append, List.cons.injEq] at ht
      exact hf (ht.1 ▸ List.mem_cons_self d fs)
  | cons c gs ih =>
    cases f with
    | nil =>
      exfalso
      simp only [List.cons_append, List.nil_append] at h
      rcases h with ⟨t, ht⟩
      simp only [List.cons_append, List.singleton_append, List.cons.injEq] at ht
      exact hg (ht.1.symm ▸ List.mem_cons_self c gs)
    | cons d fs =>
      simp only [List.cons_append, List.cons_prefix_cons] at h
      have := ih (fun hc => hg (List.mem_cons_of_mem c hc))
        (fun hc => hf (List.mem_cons_of_mem d hc)) h.2
      rw [h.1, this]

theorem matchShort_self {f name : Str} (hne : name ≠ [])
    (hws : ∀ c ∈ name, isWs c = false) :
    matchShort f (f ++ ':' :: name) = some name := by
  have heq : f ++ ':' :: name = (f ++ [':']) ++ name := by simp
  have h1 : (f ++ [':']).isPrefixOf (f ++ ':' :: name) = true := by
    rw [List.isPrefixOf_iff_prefix, heq]
    exact List.prefix_append _ _
  have hdrop : (f ++ ':' :: name).drop (f.length + 1) = name := by
    rw [heq]
    have : f.length + 1 = (f ++ [':']).length := by simp
    rw [this, List.drop_left]
  simp only [matchShort, h1, if_true, hdrop]
  simp only [ne_eq, hne, not_false_eq_true, true_and, List.all_eq_true, if_pos]
  rw [if_pos]
  intro c hc
  simp [hws c hc]

theorem matchShort_ne {g f name : Str} (hgf : g ≠ f) (hg : ':' ∉ g) (hf : ':' ∉ f) :
    matchShort g (f ++ ':' :: name) = none := by
  have hfalse : (g ++ [':']).isPrefixOf (f ++ ':' :: name) = false := by
    rw [Bool.eq_false_iff]
    intro hp
    rw [List.isPrefixOf_iff_prefix] at hp
    have heq : f ++ ':' :: name = (f ++ [':']) ++ name := by simp
    rw [heq] at hp
    rcases List.prefix_or_prefix_of_prefix hp (List.prefix_append (f ++ [':']) name) with h1 | h1
    · exact hgf (eq_of_append_colon_pfx hg hf h1)
    · exact hgf (eq_of_append_colon_pfx hf hg h1).symm
  simp [matchShort, hfalse]

theorem matchShort_none_of_head {g s : Str} {c d : Char} (hgh : g.head? = some c)
    (hs : s.head? = some d) (hcd : c ≠ d) : matchShort g s = none := by
  have hh : (g ++ [':']).head? = some c := by
    cases g with
    | nil => simp at hgh
    | cons x xs => simpa using hgh
  simp [matchShort, not_isPrefixOf_of_head_ne hh hs hcd]

theorem matchUri_none_of_head {u s : Str} {c d : Char} (hu : u.head? = some c)
    (hs : s.head? = some d) (hd1 : d ≠ '<') (hcd : c ≠ d) :
    matchUri u s = none := by
  have hcond : ¬ (s.head? = some '<') := by
    rw [hs]
    intro hcontra
    exact hd1 (by injection hcontra)
  simp only [matchUri, if_neg hcond]
  simp [not_isPrefixOf_of_head_ne hu hs hcd]

theorem matchUri_self {u name : Str} (hne : name ≠ [])
    (hwf : ∀ c ∈ name, isWs c = false ∧ c ≠ '>') :
    matchUri u ('<' :: (u ++ name ++ ['>'])) = some name := by
  have hpre : u.isPrefixOf (u ++ name ++ ['>']) = true := by
    rw [List.isPrefixOf_iff_prefix, List.append_assoc]
    exact List.prefix_append _ _
  have hdrop : (u ++ name ++ ['>']).drop u.length = name ++ ['>'] := by
    rw [List.append_assoc, List.drop_left]
  have hP : ∀ c ∈ name, (! (isWs c || c = '>')) = true := by
    intro c hc
    rcases hwf c hc with ⟨h1, h2⟩
    simp [h1, h2]
  have htw : (name ++ ['>']).takeWhile (fun c => ! (isWs c || c = '>')) = name :=
    takeWhile_append_stop hP (by intro c hc; simp at hc; subst hc; decide)
  have hdw : (name ++ ['>']).dropWhile (fun c => ! (isWs c || c = '>')) = ['>'] :=
    dropWhile_append_stop hP (by intro c hc; simp at hc; subst hc; decide)
  simp only [matchUri, List.head?_cons, if_pos rfl, List.tail_cons, hpre, if_true,
    hdrop, htw, hdw]
  simp [hne]

theorem matchUri_reconstruct {u s1 n : Str}
    (h : matchUri u ('<' :: s1) = some n) (hlast : s1.getLast? = some '>') :
    u ++ n ++ ['>'] = s1 := by
  simp only [matchUri, List.head?_cons, if_pos rfl, List.tail_cons] at h
  by_cases hpre : u.isPrefixOf s1
  · simp only [hpre, if_true] at h
    rw [List.isPrefixOf_iff_prefix] at hpre
    rcases hpre with ⟨t, ht⟩
    have hdrop : s1.drop u.length = t := by rw [← ht, List.drop_left]
    rw [hdrop] at h
    by_cases hcond : t.takeWhile (fun c => ! (isWs c || c = '>')) ≠ [] ∧
        (t.dropWhile (fun c => ! (isWs c || c = '>')) = [] ∨
         t.dropWhile (fun c => ! (isWs c || c = '>')) = ['>'])
    · rw [if_pos hcond] at h
      have hn : t.takeWhile (fun c => ! (isWs c || c = '>')) = n := by
        simpa using h
      rcases hcond with ⟨hne, hafter | hafter⟩
      · exfalso
        have hnne : n ≠ [] := hn ▸ hne
        have ht2 : t = n := by
          have := List.takeWhile_append_dropWhile (fun c => ! (isWs c || c = '>')) t
          rw [hn, hafter] at this
          simpa using this.symm
        have hlast2 : n.getLast? = some '>' := by
          rw [← ht, ht2] at hlast
          rwa [List.getLast?_append_of_ne_nil u hnne] at hlast
        have hmem : '>' ∈ n := by
          rcases List.mem_getLast?_eq_getLast hlast2 with ⟨hne2, hg⟩
          exact hg ▸ List.getLast_mem hne2
        have := List.mem_takeWhile_imp (hn ▸ hmem)
        simp at this
      · have ht2 : t = n ++ ['>'] := by
          have := List.takeWhile_append_dropWhile (fun c => ! (isWs c || c = '>')) t
          rw [hn, hafter] at this
          exact this.symm
        rw [← ht, ht2]
        exact List.append_assoc u n ['>']
    · rw [if_neg hcond] at h
      simp at h
  · simp [hpre] at h

theorem findSome?_eq_of_unique {α β : Type} {l : List α} {f : α → Option β}
    {t : α} {v : β} (hmem : t ∈ l) (hothers : ∀ a ∈ l, a ≠ t → f a = none)
    (ht : f t = some v) : l.findSome? f = some v := by
  induction l with
  | nil => simp at hmem
  | cons x xs ih =>
    by_cases hx : x = t
    · subst hx; simp [List.findSome?_cons, ht]
    · have hfx : f x = none := hothers x (by simp) hx
      simp only [List.findSome?_cons, hfx]
      have hmem' : t ∈ xs := by
        rcases List.mem_cons.mp hmem with h | h
        · exact absurd h.symm hx
        · exact h
      exact ih hmem' (fun a ha hat => hothers a (List.mem_cons_of_mem x ha) hat)

theorem eq_of_mem_of_fst_eq {l : List (Str × Str)} (hnd : (l.map Prod.fst).Nodup)
    {a b : Str × Str} (ha : a ∈ l) (hb : b ∈ l) (hfst : a.1 = b.1) : a = b := by
  induction l with
  | nil => simp at ha
  | cons x xs ih =>
    simp only [List.map_cons, List.nodup_cons] at hnd
    rcases List.mem_cons.mp ha with ha' | ha' <;> rcases List.mem_cons.mp hb with hb' | hb'
    · rw [ha', hb']
    · exfalso
      apply hnd.1
      have hmem2 : b.1 ∈ xs.map Prod.fst := List.mem_map_of_mem Prod.fst hb'
      rw [ha'] at hfst
      rw [hfst]
      exact hmem2
    · exfalso
      apply hnd.1
      have hmem2 : a.1 ∈ xs.map Prod.fst := List.mem_map_of_mem Prod.fst ha'
      rw [hb'] at hfst
      rw [← hfst]
      exact hmem2
    · exact ih hnd.2 ha' hb'

/-- Registry facts about the short prefixes (checked by computation). -/
theorem dict_shorts_ok : ∀ pu ∈ RESOURCES_DICT, pu.1 ≠ [] ∧ (':' ∉ pu.1) ∧
    pu.1.head? ≠ some '<' ∧ pu.1.head? ≠ some 'h' ∧ ∀ c ∈ pu.1, isWordChar c = true := by
  decide

/-- Registry facts about the URI prefixes (checked by computation). -/
theorem dict_uris_ok : ∀ pu ∈ RESOURCES_DICT, uriPatternOk ('<' :: pu.2) = true ∧
    8 ≤ pu.2.length ∧ pu.2.head? = some 'h' := by decide

/-- The registry's short prefixes are pairwise distinct. -/
theorem dict_fst_nodup : (RESOURCES_DICT.map Prod.fst).Nodup := by decide

theorem head_any_and_any_extend {r tail : Str} {p q : Char → Bool}
    (h : (r.head?.any p && r.any q) = true) :
    ((r ++ tail).head?.any p && (r ++ tail).any q) = true := by
  rcases Bool.and_eq_true_iff.mp h with ⟨h1, h2⟩
  cases r with
  | nil => simp at h1
  | cons c cs =>
    simp only [List.cons_append, List.head?_cons] at h1 ⊢
    rw [Bool.and_eq_true]
    refine ⟨h1, ?_⟩
    have : ((c :: cs) ++ tail).any q = ((c :: cs).any q || tail.any q) := List.any_append
    simp only [List.cons_append] at this
    rw [this, h2, Bool.true_or]

theorem uriPatternOk_extend {u : Str} (tail : Str)
    (h : uriPatternOk ('<' :: u) = true) (hlen : 8 ≤ u.length) :
    uriPatternOk ('<' :: (u ++ tail)) = true := by
  simp only [uriPatternOk, List.head?_cons, if_pos rfl, if_true, List.tail_cons] at h ⊢
  by_cases hs : ("https://".toList).isPrefixOf u
  · simp only [hs, if_true] at h
    simp only [isPrefixOf_append_of hs tail, if_true]
    rw [drop_append_of_le hlen]
    exact head_any_and_any_extend h
  · have hs' : ("https://".toList).isPrefixOf (u ++ tail) = false :=
      not_isPrefixOf_of_le tail (by simpa using hlen) (Bool.eq_false_iff.mpr hs)
    simp only [Bool.eq_false_iff.mpr hs, Bool.false_eq_true, if_false] at h
    simp only [hs', Bool.false_eq_true, if_false]
    by_cases hh : ("http://".toList).isPrefixOf u
    · simp only [hh, if_true] at h
      simp only [isPrefixOf_append_of hh tail, if_true]
      rw [drop_append_of_le (by omega)]
      exact head_any_and_any_extend h
    · rw [Bool.eq_false_iff.mpr hh] at h
      exact Bool.noConfusion h

theorem getPrefixOk_compressed {f name : Str} (hf : f ≠ [])
    (hfw : ∀ c ∈ f, isWordChar c = true) (hne : name ≠ [])
    (hws : ∀ c ∈ name, isWs c = false) :
    getPrefixOk (f ++ ':' :: name) = true := by
  cases name with
  | nil => exact absurd rfl hne
  | cons d rest =>
    have hdw : (f ++ ':' :: d :: rest).dropWhile isWordChar = ':' :: d :: rest :=
      dropWhile_append_stop hfw (by intro c hc; simp at hc; subst hc; decide)
    have htw : (f ++ ':' :: d :: rest).takeWhile isWordChar = f :=
      takeWhile_append_stop hfw (by intro c hc; simp at hc; subst hc; decide)
    have hmatch : prefixPatternMatchOk (f ++ ':' :: d :: rest) = true := by
      simp only [prefixPatternMatchOk, hdw, htw]
      simp [hf, hws d (by simp)]
    simp [getPrefixOk, hmatch]

theorem familyCtor_ne_compressed {a pu : Str × Str} (ha : a ∈ RESOURCES_DICT)
    (hpu : pu ∈ RESOURCES_DICT) (hane : a ≠ pu) (name : Str) :
    familyCtor a (pu.1 ++ ':' :: name) = none := by
  obtain ⟨haf1, haf2, haf3, haf4, haf5⟩ := dict_shorts_ok a ha
  obtain ⟨hpf1, hpf2, hpf3, hpf4, hpf5⟩ := dict_shorts_ok pu hpu
  have hafst : a.1 ≠ pu.1 := fun h => hane (eq_of_mem_of_fst_eq dict_fst_nodup ha hpu h)
  have hms : matchShort a.1 (pu.1 ++ ':' :: name) = none := matchShort_ne hafst haf2 hpf2
  obtain ⟨hua, hlena, hha⟩ := dict_uris_ok a ha
  obtain ⟨c, hc⟩ : ∃ c, pu.1.head? = some c := by
    cases pu1 : pu.1 with
    | nil => exact absurd pu1 hpf1
    | cons x xs => exact ⟨x, rfl⟩
  have hhead : (pu.1 ++ ':' :: name).head? = some c := by
    rw [List.head?_append_of_ne_nil _ hpf1, hc]
  have hc1 : c ≠ '<' := fun hcc => hpf3 (by rw [hc, hcc])
  have hc2 : 'h' ≠ c := fun hcc => hpf4 (by rw [hc, ← hcc])
  have hmu : matchUri a.2 (pu.1 ++ ':' :: name) = none :=
    matchUri_none_of_head hha hhead hc1 hc2
  simp [familyCtor, hms, hmu]

theorem familyCtor_self_compressed (pu : Str × Str) {name : Str}
    (hne : name ≠ []) (hws : ∀ c ∈ name, isWs c = false) :
    familyCtor pu (pu.1 ++ ':' :: name) = some ⟨pu.1, pu.2, name⟩ := by
  simp [familyCtor, matchShort_self hne hws]

theorem matchShort_all_none_decompressed {s1 : Str} :
    ∀ a ∈ RESOURCES_DICT, matchShort a.1 ('<' :: s1) = none := by
  intro a ha
  obtain ⟨h1, h2, h3, h4, h5⟩ := dict_shorts_ok a ha
  obtain ⟨c, hc⟩ : ∃ c, a.1.head? = some c := by
    cases ca : a.1 with
    | nil => exact absurd ca h1
    | cons x xs => exact ⟨x, rfl⟩
  have hcne : c ≠ '<' := fun hcc => h3 (by rw [hc, hcc])
  exact matchShort_none_of_head hc (by rfl) hcne

/-- C3 (amended): for every registered family and every local name that is
nonempty, whitespace-free and free of `>`, classifying either rendering of
the resource built from that family succeeds and returns a resource with
the same decompressed (long-form) rendering — the claim's notion of
equality.  (The classifier may stop at a different family whose URI prefix
subsumes the rendered URI, e.g. `<.../prop/statement/P184>` classifies as
the `p` family, but the long form is preserved, so the resources are
equal.)  The original claim's unrestricted form is refuted by
`c3_classify_counterexample`: a constructible resource whose name contains
`>` cannot be re-classified from its decompressed rendering. -/
theorem c3_classify_render (pu : Str × Str) (hm : pu ∈ RESOURCES_DICT) (name : Str)
    (hne : name ≠ []) (hwf : ∀ c ∈ name, isWs c = false ∧ c ≠ '>') :
    createResource (Resource.get ⟨pu.1, pu.2, name⟩ true) = some ⟨pu.1, pu.2, name⟩ ∧
    ∃ r', createResource (Resource.get ⟨pu.1, pu.2, name⟩ false) = some r' ∧
      r'.get false = Resource.get ⟨pu.1, pu.2, name⟩ false := by
  obtain ⟨hpf1, hpf2, hpf3, hpf4, hpf5⟩ := dict_shorts_ok pu hm
  obtain ⟨hu1, hu2, hu3⟩ := dict_uris_ok pu hm
  have hws : ∀ c ∈ name, isWs c = false := fun c hc => (hwf c hc).1
  constructor
  · have hget : Resource.get ⟨pu.1, pu.2, name⟩ true = pu.1 ++ ':' :: name := rfl
    rw [hget]
    have hok : getPrefixOk (pu.1 ++ ':' :: name) = true :=
      getPrefixOk_compressed hpf1 hpf5 hne hws
    simp only [createResource, hok, if_true]
    exact findSome?_eq_of_unique hm
      (fun a ha hane => familyCtor_ne_compressed ha hm hane name)
      (familyCtor_self_compressed pu hne hws)
  · have hget : Resource.get ⟨pu.1, pu.2, name⟩ false = '<' :: (pu.2 ++ name ++ ['>']) := by
      simp [Resource.get]
    rw [hget]
    have hext := uriPatternOk_extend (name ++ ['>']) hu1 hu2
    have hok : getPrefixOk ('<' :: (pu.2 ++ name ++ ['>'])) = true := by
      simp only [getPrefixOk, Bool.or_eq_true]
      left
      rw [List.append_assoc]
      exact hext
    simp only [createResource, hok, if_true]
    have hmu0 : matchUri pu.2 ('<' :: (pu.2 ++ (name ++ ['>']))) = some name := by
      rw [← List.append_assoc]
      exact matchUri_self hne hwf
    have hself : familyCtor pu ('<' :: (pu.2 ++ name ++ ['>'])) = some ⟨pu.1, pu.2, name⟩ := by
      simp [familyCtor, matchShort_all_none_decompressed pu hm, hmu0]
    cases hfind : RESOURCES_DICT.findSome?
        (fun a => familyCtor a ('<' :: (pu.2 ++ name ++ ['>']))) with
    | none =>
      exfalso
      have h0 := List.findSome?_eq_none_iff.mp hfind pu hm
      rw [hself] at h0
      cases h0
    | some r' =>
      refine ⟨r', rfl, ?_⟩
      obtain ⟨a, ha, hfa⟩ := List.exists_of_findSome?_eq_some hfind
      simp only [familyCtor, matchShort_all_none_decompressed a ha] at hfa
      cases hmu : matchUri a.2 ('<' :: (pu.2 ++ name ++ ['>'])) with
      | none => rw [hmu] at hfa; cases hfa
      | some n =>
        rw [hmu] at hfa
        have hr' : r' = ⟨a.1, a.2, n⟩ := by
          simpa using hfa.symm
        have hlast : (pu.2 ++ name ++ ['>']).getLast? = some '>' := by
          rw [List.getLast?_append_of_ne_nil _ (by simp)]
          rfl
        have hrec := matchUri_reconstruct hmu hlast
        rw [hr']
        simp only [Resource.get, List.cons_append, List.append_assoc] at hrec ⊢
        rw [hrec]
        simp

/-- C3 counterexample: the resource built by `WikidataEntity("wd:Q1>2")` is
constructible from the registered `wd` family (`(\S+)` admits `>` in the
local name), but classifying its decompressed rendering
`<http://www.wikidata.org/entity/Q1>2>` raises
`ResourceNotSupportedException` (no family's `([^\s>]+)>?$` pattern can
cross the embedded `>`), so `create_resource(r.get(compress=False))`
does not return a resource equal to `r`. -/
theorem c3_classify_counterexample :
    ("wd".toList, "http://www.wikidata.org/entity/".toList) ∈ RESOURCES_DICT ∧
    familyCtor ("wd".toList, "http://www.wikidata.org/entity/".toList)
      ("wd:Q1>2".toList) = some gtNameResource ∧
    createResource (gtNameResource.get false) = none :=
  ⟨by decide, by decide, by decide⟩

/-- Witness for `c3_classify_render` at the `wd` family with name `Q5`. -/
theorem c3_classify_render_witness :
    createResource (Resource.get ⟨"wd".toList,
        "http://www.wikidata.org/entity/".toList, "Q5".toList⟩ true) =
      some ⟨"wd".toList, "http://www.wikidata.org/entity/".toList, "Q5".toList⟩ ∧
    ∃ r', createResource (Resource.get ⟨"wd".toList,
        "http://www.wikidata.org/entity/".toList, "Q5".toList⟩ false) = some r' ∧
      r'.get false = Resource.get ⟨"wd".toList,
        "http://www.wikidata.org/entity/".toList, "Q5".toList⟩ false :=
  c3_classify_render ("wd".toList, "http://www.wikidata.org/entity/".toList)
    (by decide) "Q5".toList (by decide) (by decide)

/-! ### Drain and preservation lemmas for the Force slot-filling loops -/

theorem entsOf_map (l : List Mention) : entsOf (l.map .ment) = l := by
  induction l with
  | nil => rfl
  | cons m rest ih => simp [entsOf, List.filterMap] at ih ⊢; exact ih

theorem searchLoopF_isSome (label : Str) (flexible : Bool) :
    ∀ (pre : List EntEntry), EntEntry.endMark ∉ pre →
    ∀ (post : List EntEntry) (fuel : Nat), pre.length < fuel →
    (searchLoopF label flexible fuel (pre ++ .endMark :: post)).isSome := by
  intro pre
  induction pre with
  | nil =>
    intro _ post fuel hf
    cases fuel with
    | zero => omega
    | succ f => simp [searchLoopF]
  | cons e pre' ih =>
    intro hnm post fuel hf
    cases fuel with
    | zero => simp at hf
    | succ f =>
      cases e with
      | endMark => exact absurd (List.mem_cons_self _ _) hnm
      | ment m =>
        simp only [List.cons_append, searchLoopF, List.append_eq]
        split
        · simp
        · have harr : (pre' ++ EntEntry.endMark :: post) ++ [EntEntry.ment m] =
              pre' ++ EntEntry.endMark :: (post ++ [EntEntry.ment m]) := by
            simp [List.append_assoc]
          rw [harr]
          exact ih (fun hmem => hnm (List.mem_cons_of_mem _ hmem))
            (post ++ [.ment m]) f (by simp at hf ⊢; omega)

theorem searchLoopF_none_state (label : Str) (flexible : Bool) :
    ∀ (pre : List EntEntry), EntEntry.endMark ∉ pre →
    ∀ (post : List EntEntry) (fuel : Nat), pre.length < fuel →
    ∀ q', searchLoopF label flexible fuel (pre ++ .endMark :: post) = some (none, q') →
    q' = post ++ pre := by
  intro pre
  induction pre with
  | nil =>
    intro _ post fuel hf q' hq
    cases fuel with
    | zero => omega
    | succ f =>
      simp [searchLoopF] at hq
      simp [hq]
  | cons e pre' ih =>
    intro hnm post fuel hf q' hq
    cases fuel with
    | zero => simp at hf
    | succ f =>
      cases e with
      | endMark => exact absurd (List.mem_cons_self _ _) hnm
      | ment m =>
        simp only [List.cons_append, searchLoopF, List.append_eq] at hq
        split at hq
        · simp at hq
        · have harr : (pre' ++ EntEntry.endMark :: post) ++ [EntEntry.ment m] =
              pre' ++ EntEntry.endMark :: (post ++ [EntEntry.ment m]) := by
            simp [List.append_assoc]
          rw [harr] at hq
          have := ih (fun hmem => hnm (List.mem_cons_of_mem _ hmem))
            (post ++ [.ment m]) f (by simp at hf ⊢; omega) q' hq
          rw [this]
          simp [List.append_assoc]

theorem endMark_not_mem_map_ment (l : List Mention) : EntEntry.endMark ∉ l.map .ment := by
  intro h
  rcases List.mem_map.mp h with ⟨m, _, hm⟩
  cases hm

theorem search_valid_entity_isSome (label : Str) (ents : List Mention) (flexible : Bool) :
    (search_valid_entity label ents flexible).isSome := by
  have := searchLoopF_isSome label flexible (ents.map .ment)
    (endMark_not_mem_map_ment ents) [] (ents.length + 2) (by simp)
  simpa [search_valid_entity] using this

theorem search_valid_entity_none_state (label : Str) (ents : List Mention) (flexible : Bool)
    {q' : List EntEntry} (h : search_valid_entity label ents flexible = some (none, q')) :
    entsOf q' = ents := by
  have := searchLoopF_none_state label flexible (ents.map .ment)
    (endMark_not_mem_map_ment ents) [] (ents.length + 2) (by simp) q'
    (by simpa [search_valid_entity] using h)
  rw [this]
  simp [entsOf_map]

theorem p1Pairs_isSome (slot : Str) :
    ∀ (pairs : List (Str × Str)) (query : Str) (audit : List (Str × Str))
      (used : List Str) (ents : List Mention) (succ : Bool),
    (p1Pairs slot pairs query audit used ents succ).isSome := by
  intro pairs
  induction pairs with
  | nil => intros; simp [p1Pairs]
  | cons lp rest ih =>
    intro query audit used ents succ
    obtain ⟨label, ph⟩ := lp
    by_cases h1 : ph ≠ slot
    · simpa only [p1Pairs, if_pos h1] using ih ..
    · by_cases h2 : ph = "<num>".toList
      · simpa only [p1Pairs, if_neg h1, if_pos h2] using ih ..
      · by_cases h3 : ph = "<str_value>".toList
        · simpa only [p1Pairs, if_neg h1, if_neg h2, if_pos h3] using ih ..
        · cases hs : search_valid_entity label ents false with
          | none =>
            exfalso
            have := search_valid_entity_isSome label ents false
            rw [hs] at this
            simp at this
          | some r =>
            obtain ⟨res, qq⟩ := r
            cases res with
            | none => simpa only [p1Pairs, if_neg h1, if_neg h2, if_neg h3, hs] using ih ..
            | some url => simpa only [p1Pairs, if_neg h1, if_neg h2, if_neg h3, hs] using ih ..

theorem p1Pairs_inv (slot : Str) :
    ∀ (pairs : List (Str × Str)) (query : Str) (audit : List (Str × Str))
      (used : List Str) (ents : List Mention) (succ : Bool)
      (q' : Str) (a' : List (Str × Str)) (u' : List Str) (e' : List Mention) (s' : Bool),
    p1Pairs slot pairs query audit used ents succ = some (q', a', u', e', s') →
    (∀ x ∈ audit, x ∈ a') ∧
    (∀ x ∈ u', x ∈ used ∨ x = slot) ∧
    (∀ x ∈ u', x ∈ used ∨ x ∈ a'.map Prod.fst) ∧
    (s' = true → succ = true ∨ slot ∈ a'.map Prod.fst) := by
  intro pairs
  induction pairs with
  | nil =>
    intro query audit used ents succ q' a' u' e' s' h
    simp only [p1Pairs, Option.some.injEq, Prod.mk.injEq] at h
    obtain ⟨_, ha, hu, _, hs⟩ := h
    subst ha; subst hu; subst hs
    exact ⟨fun x hx => hx, fun x hx => Or.inl hx, fun x hx => Or.inl hx,
      fun hs => Or.inl hs⟩
  | cons lp rest ih =>
    intro query audit used ents succ q' a' u' e' s' h
    obtain ⟨label, ph⟩ := lp
    by_cases h1 : ph ≠ slot
    · rw [p1Pairs, if_pos h1] at h
      exact ih _ _ _ _ _ _ _ _ _ _ h
    · have hps : ph = slot := not_ne_iff.mp h1
      -- helper discharging the three accumulator-extending branches
      have step : ∀ (X : Str) (query2 : Str) (ents2 : List Mention),
          p1Pairs slot rest query2 (audit ++ [(ph, X)]) (used ++ [ph]) ents2 true =
            some (q', a', u', e', s') →
          (∀ x ∈ audit, x ∈ a') ∧ (∀ x ∈ u', x ∈ used ∨ x = slot) ∧
          (∀ x ∈ u', x ∈ used ∨ x ∈ a'.map Prod.fst) ∧
          (s' = true → succ = true ∨ slot ∈ a'.map Prod.fst) := by
        intro X query2 ents2 hrec
        obtain ⟨ih1, ih2, ih3, ih4⟩ := ih _ _ _ _ _ _ _ _ _ _ hrec
        have hmemA : (ph, X) ∈ a' := ih1 (ph, X) (by simp)
        have hslotA : slot ∈ a'.map Prod.fst := by
          rw [List.mem_map]
          exact ⟨(ph, X), hmemA, hps⟩
        refine ⟨fun x hx => ih1 x (by simp [hx]), ?_, ?_, fun _ => Or.inr hslotA⟩
        · intro x hx
          rcases ih2 x hx with hx2 | hx2
          · rcases List.mem_append.mp hx2 with hx3 | hx3
            · exact Or.inl hx3
            · simp at hx3
              exact Or.inr (hx3 ▸ hps)
          · exact Or.inr hx2
        · intro x hx
          rcases ih3 x hx with hx2 | hx2
          · rcases List.mem_append.mp hx2 with hx3 | hx3
            · exact Or.inl hx3
            · simp at hx3
              exact Or.inr (hx3 ▸ hps ▸ hslotA)
          · exact Or.inr hx2
      by_cases h2 : ph = "<num>".toList
      · rw [p1Pairs, if_neg h1, if_pos h2] at h
        exact step _ _ _ h
      · by_cases h3 : ph = "<str_value>".toList
        · rw [p1Pairs, if_neg h1, if_neg h2, if_pos h3] at h
          exact step _ _ _ h
        · cases hs : search_valid_entity label ents false with
          | none =>
            exfalso
            have := search_valid_entity_isSome label ents false
            rw [hs] at this
            simp at this
          | some r =>
            obtain ⟨res, qq⟩ := r
            cases res with
            | none =>
              simp only [p1Pairs, if_neg h1, if_neg h2, if_neg h3, hs] at h
              exact ih _ _ _ _ _ _ _ _ _ _ h
            | some url =>
              simp only [p1Pairs, if_neg h1, if_neg h2, if_neg h3, hs] at h
              exact step _ _ _ h

theorem p1LoopF_isSome (slots : List (Str × Str)) :
    ∀ (pre post : List Str) (fuel : Nat), pre.length < fuel →
    ∀ (query : Str) (audit : List (Str × Str)) (used : List Str) (ents : List Mention),
    endTok ∉ used →
    (p1LoopF slots fuel query audit used ents (pre ++ endTok :: post)).isSome := by
  intro pre
  induction pre with
  | nil =>
    intro post fuel hf query audit used ents hEnd
    cases fuel with
    | zero => omega
    | succ f =>
      rw [List.nil_append]
      simp only [p1LoopF]
      rw [if_neg hEnd]
      simp
  | cons slot pre' ih =>
    intro post fuel hf query audit used ents hEnd
    cases fuel with
    | zero => simp at hf
    | succ f =>
      simp only [List.cons_append, p1LoopF, List.append_eq]
      by_cases hu : slot ∈ used
      · rw [if_pos hu]
        exact ih post f (by simp at hf; omega) query audit used ents hEnd
      · rw [if_neg hu]
        by_cases hsent : slot = endTok
        · rw [if_pos hsent]
          simp
        · rw [if_neg hsent]
          cases hp : p1Pairs slot slots query audit used ents false with
          | none =>
            exfalso
            have := p1Pairs_isSome slot slots query audit used ents false
            rw [hp] at this
            simp at this
          | some out =>
            obtain ⟨q', a', u', e', succ⟩ := out
            have hEnd' : endTok ∉ u' := by
              intro hmem
              rcases (p1Pairs_inv slot slots query audit used ents false
                q' a' u' e' succ hp).2.1 _ hmem with hin | heq
              · exact hEnd hin
              · exact hsent heq.symm
            cases succ with
            | true =>
              simp only [if_true]
              exact ih post f (by simp at hf; omega) q' a' u' e' hEnd'
            | false =>
              simp only [Bool.false_eq_true, if_false]
              have harr : (pre' ++ endTok :: post) ++ [slot] =
                  pre' ++ endTok :: (post ++ [slot]) := by
                simp [List.append_assoc]
              rw [harr]
              exact ih (post ++ [slot]) f (by simp at hf; omega) q' a' u' e' hEnd'

theorem p1LoopF_cover (slots : List (Str × Str)) :
    ∀ (pre post : List Str) (fuel : Nat), pre.length < fuel →
    ∀ (query : Str) (audit : List (Str × Str)) (used : List Str) (ents : List Mention)
      (q' : Str) (a' : List (Str × Str)) (u' : List Str) (e' : List Mention)
      (left' : List Str),
    (∀ x ∈ used, x ∈ audit.map Prod.fst) → endTok ∉ used →
    p1LoopF slots fuel query audit used ents (pre ++ endTok :: post) =
      some (q', a', u', e', left') →
    (∀ x ∈ audit, x ∈ a') ∧
    (∀ p, (p ∈ pre ∨ p ∈ post) → p ∈ a'.map Prod.fst ∨ p ∈ left') := by
  intro pre
  induction pre with
  | nil =>
    intro post fuel hf query audit used ents q' a' u' e' left' hused hEnd h
    cases fuel with
    | zero => omega
    | succ f =>
      rw [List.nil_append] at h
      simp only [p1LoopF] at h
      rw [if_neg hEnd] at h
      simp only [if_true, Option.some.injEq, Prod.mk.injEq] at h
      obtain ⟨_, ha, _, _, hl⟩ := h
      subst ha; subst hl
      refine ⟨fun x hx => hx, fun p hp => Or.inr ?_⟩
      rcases hp with hp | hp
      · exact absurd hp (List.not_mem_nil p)
      · exact hp
  | cons slot pre' ih =>
    intro post fuel hf query audit used ents q' a' u' e' left' hused hEnd h
    cases fuel with
    | zero => simp at hf
    | succ f =>
      simp only [List.cons_append, p1LoopF, List.append_eq] at h
      by_cases hu : slot ∈ used
      · rw [if_pos hu] at h
        obtain ⟨c1, c2⟩ := ih post f (by simp at hf; omega) query audit used ents
          q' a' u' e' left' hused hEnd h
        refine ⟨c1, fun p hp => ?_⟩
        rcases hp with hp | hp
        · rcases List.mem_cons.mp hp with hp2 | hp2
          · subst hp2
            rcases List.mem_map.mp (hused p hu) with ⟨entry, hentry, hfst⟩
            exact Or.inl (List.mem_map.mpr ⟨entry, c1 entry hentry, hfst⟩)
          · exact c2 p (Or.inl hp2)
        · exact c2 p (Or.inr hp)
      · rw [if_neg hu] at h
        by_cases hsent : slot = endTok
        · rw [if_pos hsent] at h
          simp only [Option.some.injEq, Prod.mk.injEq] at h
          obtain ⟨_, ha, _, _, hl⟩ := h
          subst ha; subst hl
          refine ⟨fun x hx => hx, fun p hp => Or.inr ?_⟩
          rcases hp with hp | hp
          · rcases List.mem_cons.mp hp with hp2 | hp2
            · subst hp2
              rw [hsent]
              simp
            · simp [hp2]
          · simp [hp]
        · rw [if_neg hsent] at h
          cases hp : p1Pairs slot slots query audit used ents false with
          | none => rw [hp] at h; cases h
          | some out =>
            rw [hp] at h
            obtain ⟨q1, a1, u1, e1, succ⟩ := out
            obtain ⟨i1, i2, i3, i4⟩ :=
              p1Pairs_inv slot slots query audit used ents false q1 a1 u1 e1 succ hp
            have hused1 : ∀ x ∈ u1, x ∈ a1.map Prod.fst := by
              intro x hx
              rcases i3 x hx with hx2 | hx2
              · rcases List.mem_map.mp (hused x hx2) with ⟨entry, hentry, hfst⟩
                exact List.mem_map.mpr ⟨entry, i1 entry hentry, hfst⟩
              · exact hx2
            have hEnd1 : endTok ∉ u1 := by
              intro hmem
              rcases i2 _ hmem with hin | heq
              · exact hEnd hin
              · exact hsent heq.symm
            cases succ with
            | true =>
              simp only [if_true] at h
              obtain ⟨c1, c2⟩ := ih post f (by simp at hf; omega) q1 a1 u1 e1
                q' a' u' e' left' hused1 hEnd1 h
              have hslot : slot ∈ a'.map Prod.fst := by
                rcases i4 rfl with hfalse | hslot1
                · cases hfalse
                · rcases List.mem_map.mp hslot1 with ⟨entry, hentry, hfst⟩
                  exact List.mem_map.mpr ⟨entry, c1 entry hentry, hfst⟩
              refine ⟨fun x hx => c1 x (i1 x hx), fun p hp => ?_⟩
              rcases hp with hp | hp
              · rcases List.mem_cons.mp hp with hp2 | hp2
                · exact hp2 ▸ Or.inl hslot
                · exact c2 p (Or.inl hp2)
              · exact c2 p (Or.inr hp)
            | false =>
              simp only [Bool.false_eq_true, if_false] at h
              have harr : (pre' ++ endTok :: post) ++ [slot] =
                  pre' ++ endTok :: (post ++ [slot]) := by
                simp [List.append_assoc]
              rw [harr] at h
              obtain ⟨c1, c2⟩ := ih (post ++ [slot]) f (by simp at hf; omega) q1 a1 u1 e1
                q' a' u' e' left' hused1 hEnd1 h
              refine ⟨fun x hx => c1 x (i1 x hx), fun p hp => ?_⟩
              rcases hp with hp | hp
              · rcases List.mem_cons.mp hp with hp2 | hp2
                · exact c2 p (Or.inr (by simp [hp2]))
                · exact c2 p (Or.inl hp2)
              · exact c2 p (Or.inr (by simp [hp]))

theorem p2InnerF_isSome (slot : Str) :
    ∀ (pre : List SlotItem), SlotItem.endMark ∉ pre →
    ∀ (post : List SlotItem) (fuel : Nat), pre.length < fuel →
    ∀ (query : Str) (audit : List (Str × Str)) (ents : List Mention),
    (p2InnerF slot fuel query audit ents (pre ++ .endMark :: post)).isSome := by
  intro pre
  induction pre with
  | nil =>
    intro _ post fuel hf query audit ents
    cases fuel with
    | zero => omega
    | succ f => simp [p2InnerF]
  | cons si pre' ih =>
    intro hnm post fuel hf query audit ents
    cases fuel with
    | zero => simp at hf
    | succ f =>
      cases si with
      | endMark => exact absurd (List.mem_cons_self _ _) hnm
      | item label ph =>
        simp only [List.cons_append, p2InnerF, List.append_eq]
        by_cases hfz : ¬ (digitOf slot = digitOf ph ∨
            triplePosition slot = triplePosition ph)
        · rw [if_pos hfz]
          have harr : (pre' ++ SlotItem.endMark :: post) ++ [SlotItem.item label ph] =
              pre' ++ SlotItem.endMark :: (post ++ [SlotItem.item label ph]) := by
            simp [List.append_assoc]
          rw [harr]
          exact ih (fun hm => hnm (List.mem_cons_of_mem _ hm)) _ f
            (by simp at hf; omega) query audit ents
        · rw [if_neg hfz]
          cases hs : search_valid_entity label ents true with
          | none =>
            exfalso
            have := search_valid_entity_isSome label ents true
            rw [hs] at this
            simp at this
          | some r =>
            obtain ⟨res, qq⟩ := r
            cases res with
            | some url => simp [hs]
            | none =>
              simp only [hs]
              exact ih (fun hm => hnm (List.mem_cons_of_mem _ hm)) post f
                (by simp at hf; omega) query audit (entsOf qq)

theorem p2InnerF_out (slot : Str) :
    ∀ (pre : List SlotItem), SlotItem.endMark ∉ pre →
    ∀ (post : List SlotItem), SlotItem.endMark ∉ post →
    ∀ (fuel : Nat), pre.length < fuel →
    ∀ (query : Str) (audit : List (Str × Str)) (ents : List Mention)
      (succ : Bool) (q1 : Str) (a1 : List (Str × Str)) (e1 : List Mention)
      (items1 : List SlotItem),
    p2InnerF slot fuel query audit ents (pre ++ .endMark :: post) =
      some (succ, q1, a1, e1, items1) →
    SlotItem.endMark ∉ items1 ∧
    (succ = false → q1 = query ∧ a1 = audit ∧ e1 = ents) ∧
    (succ = true → (∀ x ∈ audit, x ∈ a1) ∧ slot ∈ a1.map Prod.fst) := by
  intro pre
  induction pre with
  | nil =>
    intro _ post hpost fuel hf query audit ents succ q1 a1 e1 items1 h
    cases fuel with
    | zero => omega
    | succ f =>
      simp only [List.nil_append, p2InnerF, Option.some.injEq, Prod.mk.injEq] at h
      obtain ⟨hsucc, hq, ha, he, hi⟩ := h
      subst hsucc; subst hq; subst ha; subst he; subst hi
      exact ⟨hpost, fun _ => ⟨rfl, rfl, rfl⟩, fun hcontra => by cases hcontra⟩
  | cons si pre' ih =>
    intro hnm post hpost fuel hf query audit ents succ q1 a1 e1 items1 h
    cases fuel with
    | zero => simp at hf
    | succ f =>
      cases si with
      | endMark => exact absurd (List.mem_cons_self _ _) hnm
      | item label ph =>
        simp only [List.cons_append, p2InnerF, List.append_eq] at h
        by_cases hfz : ¬ (digitOf slot = digitOf ph ∨
            triplePosition slot = triplePosition ph)
        · rw [if_pos hfz] at h
          have harr : (pre' ++ SlotItem.endMark :: post) ++ [SlotItem.item label ph] =
              pre' ++ SlotItem.endMark :: (post ++ [SlotItem.item label ph]) := by
            simp [List.append_assoc]
          rw [harr] at h
          have hpost' : SlotItem.endMark ∉ post ++ [SlotItem.item label ph] := by
            intro hm
            rcases List.mem_append.mp hm with hm | hm
            · exact hpost hm
            · simp at hm
          exact ih (fun hm => hnm (List.mem_cons_of_mem _ hm)) _ hpost' f
            (by simp at hf; omega) query audit ents succ q1 a1 e1 items1 h
        · rw [if_neg hfz] at h
          cases hs : search_valid_entity label ents true with
          | none =>
            exfalso
            have := search_valid_entity_isSome label ents true
            rw [hs] at this
            simp at this
          | some r =>
            obtain ⟨res, qq⟩ := r
            cases res with
            | some url =>
              simp only [hs, Option.some.injEq, Prod.mk.injEq] at h
              obtain ⟨hsucc, hq, ha, he, hi⟩ := h
              subst hsucc; subst hq; subst ha; subst he
              have hitems : (pre' ++ SlotItem.endMark :: post).eraseP
                  (fun x => x = SlotItem.endMark) = pre' ++ post := by
                rw [List.eraseP_append_right _ (by
                  intro b hb
                  simp only [decide_eq_true_eq]
                  intro hbe
                  exact hnm (List.mem_cons_of_mem _ (hbe ▸ hb)))]
                rw [List.eraseP_cons_of_pos (by simp)]
              rw [← hi, hitems]
              refine ⟨?_, ?_, ?_⟩
              · intro hm
                rcases List.mem_append.mp hm with hm | hm
                · exact hnm (List.mem_cons_of_mem _ hm)
                · exact hpost hm
              · intro hcontra
                exact absurd hcontra (by decide)
              · intro _
                constructor
                · intro x hx
                  simp [hx]
                · simp
            | none =>
              simp only [hs] at h
              have hpres := search_valid_entity_none_state label ents true hs
              obtain ⟨c1, c2, c3⟩ := ih (fun hm => hnm (List.mem_cons_of_mem _ hm))
                post hpost f (by simp at hf; omega) query audit (entsOf qq)
                succ q1 a1 e1 items1 h
              refine ⟨c1, fun hsucc => ?_, c3⟩
              obtain ⟨hq, ha, he⟩ := c2 hsucc
              exact ⟨hq, ha, he.trans hpres⟩

theorem item_map_no_endMark (l : List (Str × Str)) :
    SlotItem.endMark ∉ l.map (fun lp => SlotItem.item lp.1 lp.2) := by
  intro h
  rcases List.mem_map.mp h with ⟨lp, _, hlp⟩
  cases hlp

theorem p2LoopF_isSome :
    ∀ (q : List Str) (fuel : Nat), q.length < fuel →
    ∀ (query : Str) (audit : List (Str × Str)) (ents : List Mention)
      (items : List SlotItem), SlotItem.endMark ∉ items →
    (p2LoopF fuel query audit ents items q).isSome := by
  intro q
  induction q with
  | nil =>
    intro fuel hf query audit ents items hitems
    cases fuel with
    | zero => omega
    | succ f => simp [p2LoopF]
  | cons slot q1 ih =>
    intro fuel hf query audit ents items hitems
    cases fuel with
    | zero => simp at hf
    | succ f =>
      simp only [p2LoopF]
      by_cases hee : ents.isEmpty
      · rw [if_pos hee]
        simp
      · rw [if_neg hee]
        by_cases hie : items.isEmpty
        · rw [if_pos hie]
          cases ents with
          | nil => simp [List.isEmpty] at hee
          | cons m ents' =>
            exact ih f (by simp at hf; omega) _ _ ents' items hitems
        · rw [if_neg hie]
          cases hin : p2InnerF slot (items.length + 2) query audit ents
              (items ++ [.endMark]) with
          | none =>
            exfalso
            have := p2InnerF_isSome slot items hitems [] (items.length + 2)
              (by omega) query audit ents
            rw [hin] at this
            simp at this
          | some out =>
            obtain ⟨succ, q2, a2, e2, items2⟩ := out
            obtain ⟨o1, o2, o3⟩ := p2InnerF_out slot items hitems []
              (by simp) (items.length + 2) (by omega) query audit ents
              succ q2 a2 e2 items2 hin
            cases succ with
            | true =>
              simp only [if_true]
              exact ih f (by simp at hf; omega) q2 a2 e2 items2 o1
            | false =>
              simp only [Bool.false_eq_true, if_false]
              obtain ⟨_, _, he2⟩ := o2 rfl
              cases e2 with
              | nil =>
                exfalso
                rw [← he2] at hee
                exact hee rfl
              | cons m e2' =>
                exact ih f (by simp at hf; omega) _ _ e2' items2 o1

theorem p2LoopF_cover :
    ∀ (q : List Str) (fuel : Nat), q.length < fuel →
    ∀ (query : Str) (audit : List (Str × Str)) (ents : List Mention)
      (items : List SlotItem), SlotItem.endMark ∉ items →
    ∀ (q' : Str) (a' : List (Str × Str)) (e' : List Mention),
    p2LoopF fuel query audit ents items q = some (q', a', e') →
    (∀ x ∈ audit, x ∈ a') ∧ (∀ p ∈ q, p ∈ a'.map Prod.fst ∨ e' = []) := by
  intro q
  induction q with
  | nil =>
    intro fuel hf query audit ents items hitems q' a' e' h
    cases fuel with
    | zero => omega
    | succ f =>
      simp only [p2LoopF, Option.some.injEq, Prod.mk.injEq] at h
      obtain ⟨_, ha, _⟩ := h
      subst ha
      exact ⟨fun x hx => hx, fun p hp => absurd hp (List.not_mem_nil p)⟩
  | cons slot q1 ih =>
    intro fuel hf query audit ents items hitems q' a' e' h
    cases fuel with
    | zero => simp at hf
    | succ f =>
      simp only [p2LoopF] at h
      by_cases hee : ents.isEmpty
      · rw [if_pos hee] at h
        simp only [Option.some.injEq, Prod.mk.injEq] at h
        obtain ⟨_, ha, he⟩ := h
        subst ha; subst he
        have : ents = [] := List.isEmpty_iff.mp hee
        exact ⟨fun x hx => hx, fun p _ => Or.inr this⟩
      · rw [if_neg hee] at h
        by_cases hie : items.isEmpty
        · rw [if_pos hie] at h
          cases ents with
          | nil => simp [List.isEmpty] at hee
          | cons m ents' =>
            obtain ⟨c1, c2⟩ := ih f (by simp at hf; omega) _ _ ents' items hitems
              q' a' e' h
            have hslot : slot ∈ a'.map Prod.fst := by
              have : (slot, m.url) ∈ a' := c1 _ (by simp)
              exact List.mem_map.mpr ⟨_, this, rfl⟩
            refine ⟨fun x hx => c1 x (by simp [hx]), fun p hp => ?_⟩
            rcases List.mem_cons.mp hp with hp | hp
            · exact hp ▸ Or.inl hslot
            · exact c2 p hp
        · rw [if_neg hie] at h
          cases hin : p2InnerF slot (items.length + 2) query audit ents
              (items ++ [.endMark]) with
          | none => rw [hin] at h; cases h
          | some out =>
            rw [hin] at h
            obtain ⟨succ, q2, a2, e2, items2⟩ := out
            obtain ⟨o1, o2, o3⟩ := p2InnerF_out slot items hitems []
              (by simp) (items.length + 2) (by omega) query audit ents
              succ q2 a2 e2 items2 hin
            cases succ with
            | true =>
              simp only [if_true] at h
              obtain ⟨hmono2, hslot2⟩ := o3 rfl
              obtain ⟨c1, c2⟩ := ih f (by simp at hf; omega) q2 a2 e2 items2 o1
                q' a' e' h
              have hslot : slot ∈ a'.map Prod.fst := by
                rcases List.mem_map.mp hslot2 with ⟨entry, hentry, hfst⟩
                exact List.mem_map.mpr ⟨entry, c1 entry hentry, hfst⟩
              refine ⟨fun x hx => c1 x (hmono2 x hx), fun p hp => ?_⟩
              rcases List.mem_cons.mp hp with hp | hp
              · exact hp ▸ Or.inl hslot
              · exact c2 p hp
            | false =>
              simp only [Bool.false_eq_true, if_false] at h
              obtain ⟨_, ha2, he2⟩ := o2 rfl
              subst ha2
              cases e2 with
              | nil =>
                exfalso
                rw [← he2] at hee
                exact hee rfl
              | cons m e2' =>
                obtain ⟨c1, c2⟩ := ih f (by simp at hf; omega) _ _ e2' items2 o1
                  q' a' e' h
                have hslot : slot ∈ a'.map Prod.fst := by
                  have : (slot, m.url) ∈ a' := c1 _ (by simp)
                  exact List.mem_map.mpr ⟨_, this, rfl⟩
                refine ⟨fun x hx => c1 x (by simp [hx]), fun p hp => ?_⟩
                rcases List.mem_cons.mp hp with hp | hp
                · exact hp ▸ Or.inl hslot
                · exact c2 p hp

/-- C10: `ForceQueryGenerationSlotFillingHelper.fill_template` terminates
on every input.  Each sentinel-driven rotating-queue loop — the
`slots_to_be_filled` loop (`p1LoopF`), the `remaining_slots_items` loop
(`p2InnerF`) and the `remaining_entities` scan of `search_valid_entity`
(`searchLoopF`) — strictly drains the entries ahead of its `'<END>'`
sentinel (lemmas `p1LoopF_isSome`, `p2InnerF_isSome`, `searchLoopF_isSome`),
so the whole function, run with gas budgets covering those drains, always
returns a value (it never runs out of gas and never pops an empty
deque). -/
theorem c10_force_fill_terminates (template : Str) (slots : List (Str × Str))
    (entities : List Mention) : (forceFillFull template slots entities).isSome := by
  simp only [forceFillFull]
  cases h1 : p1LoopF slots ((findPlaceholders template ++ [endTok]).length + 1)
      template [] [] entities (findPlaceholders template ++ [endTok]) with
  | none =>
    exfalso
    have := p1LoopF_isSome slots (findPlaceholders template) []
      ((findPlaceholders template ++ [endTok]).length + 1) (by simp; omega) template [] []
      entities (by simp)
    rw [h1] at this
    simp at this
  | some out =>
    obtain ⟨q1, a1, u1, e1, left1⟩ := out
    exact p2LoopF_isSome left1 (left1.length + 1) (by omega) q1 a1 e1
      ((sortedRemainingSlots (slots.filter (fun lp => lp.2 ∉ u1))).map
        (fun lp => .item lp.1 lp.2)) (item_map_no_endMark _)

/-- C4: the Force policy never leaves a placeholder unfilled while mentions
remain.  Formally: for every template, slot mapping and mention list, every
placeholder token found in the template (`re.findall('<[\w\d_]+?>')`)
receives a fill entry in the returned audit list unless the mention queue
has been fully consumed (when the queue still holds mentions, phase 2 fills
every leftover slot, by exact match, fuzzy match, or arbitrary assignment).
Moreover, on the spec's scenario the result is exactly
`ask where \x7b wd:Q9696 wdt:P103 wd:Q42365 \x7d` with both mentions
consumed. -/
theorem c4_force_fills_all_slots :
    (∀ (template : Str) (slots : List (Str × Str)) (entities : List Mention)
       (q : Str) (audit : List (Str × Str)) (remaining : List Mention),
       forceFillFull template slots entities = some (q, audit, remaining) →
       ∀ p ∈ findPlaceholders template, p ∈ audit.map Prod.fst ∨ remaining = []) ∧
    forceFillFull scenarioTemplate scenarioSlots scenarioMentions =
      some (scenarioFilled, scenarioAudit, []) := by
  constructor
  · intro template slots entities q audit remaining h p hp
    simp only [forceFillFull] at h
    cases h1 : p1LoopF slots ((findPlaceholders template ++ [endTok]).length + 1)
        template [] [] entities (findPlaceholders template ++ [endTok]) with
    | none => rw [h1] at h; cases h
    | some out =>
      rw [h1] at h
      obtain ⟨q1, a1, u1, e1, left1⟩ := out
      obtain ⟨m1, c1⟩ := p1LoopF_cover slots (findPlaceholders template) []
        ((findPlaceholders template ++ [endTok]).length + 1) (by simp; omega) template [] []
        entities q1 a1 u1 e1 left1 (by simp) (by simp) h1
      obtain ⟨m2, c2⟩ := p2LoopF_cover left1 (left1.length + 1) (by omega) q1 a1 e1
        ((sortedRemainingSlots (slots.filter (fun lp => lp.2 ∉ u1))).map
          (fun lp => .item lp.1 lp.2)) (item_map_no_endMark _) q audit remaining h
      rcases c1 p (Or.inl hp) with hpa | hpl
      · rcases List.mem_map.mp hpa with ⟨entry, hentry, hfst⟩
        exact Or.inl (List.mem_map.mpr ⟨entry, m2 entry hentry, hfst⟩)
      · exact c2 p hpl
  · decide

/-- Witness for the universal part of `c4_force_fills_all_slots`: on the
template `<sbj_1>` with no slot hints and no mentions, the single
placeholder is unfilled and the mention queue is (vacuously) consumed. -/
theorem c4_force_fills_all_slots_witness :
    "<sbj_1>".toList ∈ ([] : List (Str × Str)).map Prod.fst ∨
      ([] : List Mention) = [] :=
  c4_force_fills_all_slots.1 "<sbj_1>".toList [] [] "<sbj_1>".toList [] []
    (by decide) "<sbj_1>".toList (by decide)

/-- C5 (code bug): the Standard helper is claimed to consume each mention
at most once, and its `used_entities` set exists for exactly that purpose —
but the set is never read, so two different labels can resolve to the same
mention.  On the template `ask \x7b <sbj_1> wdt:P1 <obj_1> \x7d` with slot
hints `abc ↦ <sbj_1>`, `ab ↦ <obj_1>` and the single mention
`(abc, wd:Q1)`, both placeholders are filled with `wd:Q1` and the audit
list records the same mention URL twice. -/
theorem c5_standard_reuses_mention :
    standardFill dupTemplate dupSlots dupMentions =
      ("ask \x7b wd:Q1 wdt:P1 wd:Q1 \x7d".toList,
       [("<sbj_1>".toList, "wd:Q1".toList), ("<obj_1>".toList, "wd:Q1".toList)]) ∧
    ¬ ((standardFill dupTemplate dupSlots dupMentions).2.map Prod.snd).Nodup := by
  exact ⟨by decide, by decide⟩

/-! ## Ensemble lemmas (claims C6, C7, C9) -/

/-- Bumping a `Counter` increments exactly the bumped key. -/
theorem votesFor_bumpVote (vs : List (Str × Nat)) (e x : Str) :
    votesFor (bumpVote vs e) x = votesFor vs x + (if e = x then 1 else 0) := by
  induction vs with
  | nil => by_cases h : e = x <;> simp [bumpVote, votesFor, h]
  | cons p rest ih =>
    obtain ⟨k, n⟩ := p
    by_cases hk : k = e
    · subst hk
      by_cases hx : k = x <;> simp [bumpVote, votesFor, hx]
    · by_cases hx : k = x
      · subst hx
        have hex : ¬ e = k := fun h => hk h.symm
        simp [bumpVote, votesFor, hk, hex]
      · simp [bumpVote, votesFor, hk, hx, ih]

/-- `__gather_votes`' per-system tally adds one vote per qualifying
mention. -/
theorem tallyOutputs_votes (outs : List Annot) (sys : Str)
    (votes : List (Str × Nat)) (m : List (Str × List (Str × Annot))) (x : Str) :
    votesFor (tallyOutputs outs sys votes m).1 x =
      votesFor votes x + outs.countP (fun a =>
        wikidataEntityMatch (entityNameOf a.url) &&
          decide (entityNameOf a.url = x)) := by
  induction outs generalizing votes m with
  | nil => simp [tallyOutputs]
  | cons a rest ih =>
    by_cases hw : wikidataEntityMatch (entityNameOf a.url)
    · simp only [tallyOutputs, List.countP_cons]
      rw [if_pos hw, ih, votesFor_bumpVote]
      by_cases he : entityNameOf a.url = x
      · subst he
        simp [hw]
        omega
      · simp [hw, he]
    · simp only [tallyOutputs, List.countP_cons]
      rw [if_neg hw, ih]
      simp [hw]

/-- The precomputed key list pairs each output with its key. -/
theorem keyOutputs_snd (outs : List Annot) (keyed : List (Int × Annot))
    (h : keyOutputs outs = some keyed) : keyed.map Prod.snd = outs := by
  induction outs generalizing keyed with
  | nil =>
    simp only [keyOutputs, Option.some.injEq] at h
    subst h; rfl
  | cons a rest ih =>
    cases hk : votesSortKey a with
    | none => simp [keyOutputs, hk] at h
    | some k =>
      cases hr : keyOutputs rest with
      | none => simp [keyOutputs, hk, hr] at h
      | some ks =>
        simp only [keyOutputs, hk, hr, Option.some.injEq] at h
        subst h
        simp [ih ks hr]

/-- A successful `sorted(...)` permutes its input. -/
theorem sortOutputs_perm (outs outs' : List Annot)
    (h : sortOutputs outs = some outs') : outs'.Perm outs := by
  simp only [sortOutputs] at h
  cases hk : keyOutputs outs with
  | none => rw [hk] at h; cases h
  | some keyed =>
    rw [hk] at h
    simp only [Option.map_some', Option.some.injEq] at h
    subst h
    have hp := (List.perm_insertionSort (fun x y => x.1 ≤ y.1) keyed).map Prod.snd
    rw [keyOutputs_snd outs keyed hk] at hp
    exact hp

/-- The vote tally over a whole case list counts qualifying mentions. -/
theorem gatherVotesGo_votes (cs : List SysCase) (votes : List (Str × Nat))
    (m : List (Str × List (Str × Annot))) (v : List (Str × Nat))
    (mm : List (Str × List (Str × Annot))) (x : Str)
    (h : gatherVotesGo cs votes m = some (v, mm)) :
    votesFor v x = votesFor votes x + (cs.map (fun c => c.output.countP
      (fun a => wikidataEntityMatch (entityNameOf a.url) &&
        decide (entityNameOf a.url = x)))).sum := by
  induction cs generalizing votes m with
  | nil =>
    simp only [gatherVotesGo, Option.some.injEq, Prod.mk.injEq] at h
    obtain ⟨rfl, rfl⟩ := h
    simp
  | cons c rest ih =>
    cases hs : sortOutputs c.output with
    | none => simp [gatherVotesGo, hs] at h
    | some outs =>
      simp only [gatherVotesGo, hs] at h
      rw [ih _ _ h, tallyOutputs_votes]
      rw [(sortOutputs_perm _ _ hs).countP_eq]
      simp [List.map_cons, List.sum_cons]
      omega

/-- C6 (amended): in `VotingSystem.__gather_votes` the tally grants one
vote per qualifying MENTION, not one per mentioning system: for every
annotation bundle that the tally processes without error, an entity's vote
count equals the total number of output mentions — across all systems,
duplicates included — whose compressed name is a Wikidata entity equal to
it.  A system's duplicate mentions of the same resource therefore each
vote; no per-system deduplication and no highest-score selection takes
place (see the counterexample for the original claim). -/
theorem c6_votes_count_mentions (cs : List SysCase) (votes : List (Str × Nat))
    (m : List (Str × List (Str × Annot))) (x : Str)
    (h : gatherVotes cs = some (votes, m)) :
    votesFor votes x = (cs.map (fun c => c.output.countP
      (fun a => wikidataEntityMatch (entityNameOf a.url) &&
        decide (entityNameOf a.url = x)))).sum := by
  have := gatherVotesGo_votes cs [] [] votes m x h
  simpa [votesFor] using this

/-- Witness for `c6_votes_count_mentions` on a concrete bundle. -/
theorem c6_votes_count_mentions_witness :
    gatherVotes [dupVoteCase] = some ([("wd:Q1".toList, 2)], dupVoteOutputsMap) ∧
    votesFor [("wd:Q1".toList, 2)] ("wd:Q1".toList) =
      ([dupVoteCase].map (fun c => c.output.countP
        (fun a => wikidataEntityMatch (entityNameOf a.url) &&
          decide (entityNameOf a.url = "wd:Q1".toList)))).sum :=
  ⟨by decide, c6_votes_count_mentions [dupVoteCase] [("wd:Q1".toList, 2)]
    dupVoteOutputsMap ("wd:Q1".toList) (by decide)⟩

/-- Counterexample to C6 as stated: a single system (`Aida`) mentions
`wd:Q1` twice; the claim says duplicate mentions of one system contribute
a single vote, so the count should be `1` — the number of distinct
mentioning systems — but the tally registers `2`. -/
theorem c6_duplicate_mention_counterexample :
    (gatherVotes [dupVoteCase]).map Prod.fst = some [("wd:Q1".toList, 2)] ∧
    ([dupVoteCase].filter (fun c => c.output.any
      (fun a => wikidataEntityMatch (entityNameOf a.url) &&
        decide (entityNameOf a.url = "wd:Q1".toList)))).length = 1 := by
  exact ⟨by decide, by decide⟩

/-- A name absent from a list has no index. -/
theorem indexOfStr_eq_none (l : List Str) (s : Str) (h : s ∉ l) :
    indexOfStr l s = none := by
  induction l with
  | nil => rfl
  | cons x rest ih =>
    simp only [List.mem_cons, not_or] at h
    simp [indexOfStr, show ¬ x = s from fun hh => h.1 hh.symm, ih h.2]

/-- One failing `.index` key aborts the whole priority key computation. -/
theorem keyCases_eq_none (sysPrio : List Str) (cs : List SysCase) (c : SysCase)
    (hc : c ∈ cs) (h : indexOfStr sysPrio c.system = none) :
    keyCases sysPrio cs = none := by
  induction cs with
  | nil => cases hc
  | cons c0 rest ih =>
    rcases List.mem_cons.mp hc with rfl | hmem
    · simp [keyCases, h]
    · cases hix : indexOfStr sysPrio c0.system <;>
        simp [keyCases, hix, ih hmem]

/-- C7 (amended): the Priority merge does fail fast on an unknown system
name: `sorted(results['annotations'], key=...index(...))` computes every
priority index before processing anything, so a bundle containing any
system absent from `system_priority` makes
`PrecisionPrioritySystem.get_entity_extracted` raise `ValueError` (modelled
as `none`) — no mentions are silently dropped and no partial result is
returned.  The Voting merge does NOT share this guarantee: it looks
indices up only for mentions that reach a processed vote level, so an
unknown system without qualifying Wikidata mentions is silently accepted
(see the counterexample). -/
theorem c7_unknown_system_fails_fast (sysPrio : List Str) (filterStop : Bool)
    (stop : List Str) (tiebreak : Bool) (numExp : Nat) (results : List SysCase)
    (h : ∃ c ∈ results, c.system ∉ sysPrio) :
    priorityExtract sysPrio filterStop stop tiebreak numExp results = none := by
  obtain ⟨c, hc, hs⟩ := h
  have h2 := keyCases_eq_none sysPrio results c hc (indexOfStr_eq_none sysPrio c.system hs)
  simp [priorityExtract, sortCasesByPriority, h2]

/-- Witness for `c7_unknown_system_fails_fast`: a bundle naming the
unregistered system `Ghost`. -/
theorem c7_unknown_system_fails_fast_witness :
    (∃ c ∈ [ghostCase], c.system ∉ defaultSystemPriority) ∧
    priorityExtract defaultSystemPriority false [] true 100 [ghostCase] = none :=
  ⟨by decide, c7_unknown_system_fails_fast defaultSystemPriority false [] true 100
    [ghostCase] (by decide)⟩

/-- Counterexample to C7 as stated for the Voting merge: the bundle
`[{system: 'Ghost', output: []}]` contains a system name absent from the
default priority list, yet `VotingSystem.get_entity_extracted` (after
`gather_results`, which leaves this bundle unchanged) returns the empty
summary normally instead of raising: `get_priority_and_score` is only ever
called on mentions that reached a vote level, and `Ghost` has none. -/
theorem c7_voting_counterexample :
    ghostCase.system ∉ defaultSystemPriority ∧
    gather_results [ghostCase] = some [ghostCase] ∧
    votingExtract defaultSystemPriority false [] true 100 [ghostCase] = some [] := by
  exact ⟨by decide, by decide, by decide⟩

/-- The score backfill changes no field other than `score`. -/
theorem gatherScoreFix_shell (sys : Str) (a a' : Annot)
    (h : gatherScoreFix sys a = some a') : annotShell a' = annotShell a := by
  simp only [gatherScoreFix] at h
  cases hsl : a.score_list with
  | none =>
    rw [hsl] at h
    simp only [Option.some.injEq] at h
    subst h
    simp [annotShell, hsl]
  | some sl =>
    rw [hsl] at h
    by_cases hd : sys = "DBpedia Spotlight".toList
    · simp only [hd, if_true] at h
      cases hv : sl[1]? with
      | none => rw [hv] at h; cases h
      | some v =>
        rw [hv] at h
        simp only [Option.map_some', Option.some.injEq] at h
        subst h
        simp [annotShell, hsl]
    · simp only [hd, if_false] at h
      cases hv : sl[0]? with
      | none => rw [hv] at h; cases h
      | some v =>
        rw [hv] at h
        simp only [Option.map_some', Option.some.injEq] at h
        subst h
        simp [annotShell, hsl]

/-- The per-case output loop preserves everything but `score`. -/
theorem fixOutputs_shell (sys : Str) (outs outs' : List Annot)
    (h : fixOutputs sys outs = some outs') :
    outs'.map annotShell = outs.map annotShell := by
  induction outs generalizing outs' with
  | nil =>
    simp only [fixOutputs, Option.some.injEq] at h
    subst h; rfl
  | cons a rest ih =>
    cases ha : gatherScoreFix sys a with
    | none => simp [fixOutputs, ha] at h
    | some a2 =>
      cases hr : fixOutputs sys rest with
      | none => simp [fixOutputs, ha, hr] at h
      | some r2 =>
        simp only [fixOutputs, ha, hr, Option.some.injEq] at h
        subst h
        simp [gatherScoreFix_shell sys a a2 ha, ih r2 hr]

/-- C9 (amended): `EnsembleEntityLinkingSystem.gather_results` is NOT pure
over its input bundle — it writes a `score` key into every output mention
dictionary in place (see the counterexample) — but that is the only
mutation: whenever the score annotation succeeds, every other field of the
bundle (system names, and each output's `ini`, `fin`, `label`, `url` and
`score_list`) is preserved, output for output. -/
theorem c9_gather_results_frame (cs cs' : List SysCase)
    (h : gather_results cs = some cs') :
    cs'.map caseShell = cs.map caseShell := by
  induction cs generalizing cs' with
  | nil =>
    simp only [gather_results, Option.some.injEq] at h
    subst h; rfl
  | cons c rest ih =>
    cases ho : fixOutputs c.system c.output with
    | none => simp [gather_results, ho] at h
    | some o2 =>
      cases hr : gather_results rest with
      | none => simp [gather_results, ho, hr] at h
      | some r2 =>
        simp only [gather_results, ho, hr, Option.some.injEq] at h
        subst h
        simp [caseShell, fixOutputs_shell c.system c.output o2 ho, ih r2 hr]

/-- Witness for `c9_gather_results_frame` on a concrete bundle. -/
theorem c9_gather_results_frame_witness :
    gather_results [scorelessCase] = some [scorelessCaseFixed] ∧
    [scorelessCaseFixed].map caseShell = [scorelessCase].map caseShell :=
  ⟨by decide, c9_gather_results_frame [scorelessCase] [scorelessCaseFixed] (by decide)⟩

/-- Counterexample to C9 as stated: on a bundle whose single mention has
no `score_list`, `gather_results` returns a bundle that differs from its
input (the mention gained `score = 'wd:Q1'` — the `int(...)` branch never
fires because the compressed name starts with `wd:`, not `Q`), so the
merge mutates the annotation bundle it was given rather than leaving it
unchanged; offline, that bundle lives in `self.uid_data`, which makes the
mutation process-wide state. -/
theorem c9_mutation_counterexample :
    gather_results [scorelessCase] = some [scorelessCaseFixed] ∧
    scorelessCaseFixed ≠ scorelessCase := ⟨by decide, by decide⟩

/-! ## Template lemmas (claim C8) -/

theorem digitsVal_append_digit (a : Str) (c : Char) :
    digitsVal (a ++ [c]) = 10 * digitsVal a + (c.toNat - 48) := by
  simp [digitsVal, List.foldl_append]
  omega

theorem charOfNat_digit (d : Nat) (h : d < 10) :
    (Char.ofNat (48 + d)).toNat = 48 + d := by
  interval_cases d <;> decide

/-- The decimal renderer is a right inverse of digit-string evaluation. -/
theorem natDigitsGo_val (fuel : Nat) :
    ∀ n, n ≤ fuel → digitsVal (natDigitsGo fuel n) = n := by
  induction fuel with
  | zero =>
    intro n hn
    have : n = 0 := by omega
    subst this
    rfl
  | succ fuel ih =>
    intro n hn
    match n with
    | 0 => rfl
    | m + 1 =>
      show digitsVal (natDigitsGo fuel ((m + 1) / 10) ++
        [Char.ofNat (48 + (m + 1) % 10)]) = m + 1
      rw [digitsVal_append_digit, ih ((m + 1) / 10) (by omega),
        charOfNat_digit _ (by omega)]
      omega

theorem digitsVal_natToStr (n : Nat) : digitsVal (natToStr n) = n := by
  by_cases h : n = 0
  · subst h; decide
  · simp only [natToStr, h, if_false]
    exact natDigitsGo_val n n le_rfl

theorem natToStr_inj (a b : Nat) (h : natToStr a = natToStr b) : a = b := by
  rw [← digitsVal_natToStr a, h, digitsVal_natToStr]

theorem sbjTag_inj (i j : Nat) (h : sbjTag i = sbjTag j) : i = j := by
  apply natToStr_inj
  simpa [sbjTag, List.append_assoc] using h

theorem objTag_inj (i j : Nat) (h : objTag i = objTag j) : i = j := by
  apply natToStr_inj
  simpa [objTag, List.append_assoc] using h

theorem sbjTag_ne_objTag (i j : Nat) : sbjTag i ≠ objTag j := by
  intro h
  simp [sbjTag, objTag, List.append_assoc] at h

theorem sbjTag_ne_strValueTag (i : Nat) : sbjTag i ≠ "<str_value>".toList := by
  intro h
  simp [sbjTag, List.append_assoc] at h

theorem objTag_ne_strValueTag (i : Nat) : objTag i ≠ "<str_value>".toList := by
  intro h
  simp [objTag, List.append_assoc] at h

theorem sbjTag_ne_numTag (i : Nat) : sbjTag i ≠ "<num>".toList := by
  intro h
  simp [sbjTag, List.append_assoc] at h

theorem objTag_ne_numTag (i : Nat) : objTag i ≠ "<num>".toList := by
  intro h
  simp [objTag, List.append_assoc] at h

/-- A value of the slot dictionary built by the triple loop: a subject or
object tag of some one-based triple index below the bound. -/
def tagBelow (n : Nat) (v : Str) : Prop :=
  ∃ j, j < n ∧ (v = sbjTag j ∨ v = objTag j)

theorem tagBelow_mono {n : Nat} {v : Str} (h : tagBelow n v) : tagBelow (n + 1) v := by
  obtain ⟨j, hj, hv⟩ := h
  exact ⟨j, by omega, hv⟩

theorem not_sbjTag_of_tagBelow {n : Nat} {v : Str} (h : tagBelow n v) :
    v ≠ sbjTag n := by
  obtain ⟨j, hj, hv | hv⟩ := h <;> intro he
  · exact absurd (sbjTag_inj j n (hv ▸ he : sbjTag j = sbjTag n)) (by omega)
  · exact sbjTag_ne_objTag n j (he ▸ hv.symm ▸ rfl : sbjTag n = objTag j)

theorem not_objTag_of_tagBelow {n : Nat} {v : Str} (h : tagBelow n v) :
    v ≠ objTag n := by
  obtain ⟨j, hj, hv | hv⟩ := h <;> intro he
  · exact sbjTag_ne_objTag j n (hv ▸ he : sbjTag j = objTag n)
  · exact absurd (objTag_inj j n (hv ▸ he : objTag j = objTag n)) (by omega)

theorem dictInsert_append_of_not_mem (d : List (Str × Str)) (k v : Str)
    (h : d.any (fun p => p.1 = k) = false) : dictInsert d k v = d ++ [(k, v)] := by
  simp only [dictInsert, h]
  rfl

theorem dictInsert_cons_ne (k0 : Str) (v0 : Str) (rest : List (Str × Str))
    (k v : Str) (h : k0 ≠ k) :
    dictInsert ((k0, v0) :: rest) k v = (k0, v0) :: dictInsert rest k v := by
  by_cases hr : rest.any (fun p => p.1 = k) <;>
    simp [dictInsert, h, hr]

/-- Every value after an insert is an old value or the inserted one. -/
theorem dictInsert_vals_sub (d : List (Str × Str)) (k v : Str) :
    ∀ x ∈ (dictInsert d k v).map Prod.snd, x ∈ d.map Prod.snd ∨ x = v := by
  intro x hx
  by_cases h : d.any (fun p => p.1 = k)
  · simp only [dictInsert, h, if_true] at hx
    rcases List.mem_map.mp hx with ⟨p, hp, hpx⟩
    rcases List.mem_map.mp hp with ⟨p0, hp0, hpp⟩
    by_cases hk : p0.1 = k
    · right
      rw [← hpx, ← hpp]
      simp [hk]
    · left
      rw [← hpx, ← hpp]
      simp only [hk, if_false]
      exact List.mem_map.mpr ⟨p0, hp0, rfl⟩
  · rw [dictInsert_append_of_not_mem d k v (Bool.eq_false_iff.mpr h)] at hx
    simp only [List.map_append, List.mem_append, List.map_cons, List.map_nil,
      List.mem_cons] at hx
    rcases hx with hx | hx
    · exact Or.inl hx
    · rcases hx with hx | hx
      · exact Or.inr hx
      · cases hx

/-- Every key after an insert is an old key or the inserted one. -/
theorem dictInsert_keys_sub (d : List (Str × Str)) (k v : Str) :
    ∀ x ∈ (dictInsert d k v).map Prod.fst, x ∈ d.map Prod.fst ∨ x = k := by
  intro x hx
  by_cases h : d.any (fun p => p.1 = k)
  · simp only [dictInsert, h, if_true] at hx
    rcases List.mem_map.mp hx with ⟨p, hp, hpx⟩
    rcases List.mem_map.mp hp with ⟨p0, hp0, hpp⟩
    by_cases hk : p0.1 = k
    · right
      rw [← hpx, ← hpp]
      simp [hk]
    · left
      rw [← hpx, ← hpp]
      simp only [hk, if_false]
      exact List.mem_map.mpr ⟨p0, hp0, rfl⟩
  · rw [dictInsert_append_of_not_mem d k v (Bool.eq_false_iff.mpr h)] at hx
    simp only [List.map_append, List.mem_append, List.map_cons, List.map_nil,
      List.mem_cons] at hx
    rcases hx with hx | hx
    · exact Or.inl hx
    · rcases hx with hx | hx
      · exact Or.inr hx
      · cases hx

/-- Inserting a fresh value keeps the value list duplicate-free. -/
theorem dictInsert_vals_nodup (d : List (Str × Str)) (k v : Str)
    (hK : (d.map Prod.fst).Nodup) (hv : v ∉ d.map Prod.snd)
    (hV : (d.map Prod.snd).Nodup) :
    ((dictInsert d k v).map Prod.snd).Nodup := by
  induction d with
  | nil => simp [dictInsert]
  | cons p rest ih =>
    obtain ⟨k0, v0⟩ := p
    by_cases h0 : k0 = k
    · subst h0
      have hany : ((k0, v0) :: rest).any (fun p => p.1 = k0) = true := by simp
      simp only [dictInsert, hany, if_true, List.map_cons, if_pos rfl]
      have hrest : rest.map (fun p => if p.1 = k0 then (k0, v) else p) = rest := by
        have hkr : ∀ p ∈ rest, p.1 ≠ k0 := by
          intro p hp hpk
          simp only [List.map_cons, List.nodup_cons] at hK
          exact hK.1 (hpk ▸ List.mem_map.mpr ⟨p, hp, rfl⟩)
        calc rest.map (fun p => if p.1 = k0 then (k0, v) else p)
            = rest.map id := List.map_congr_left (fun p hp => by
              simp [hkr p hp])
          _ = rest := List.map_id rest
      rw [hrest]
      simp only [List.map_cons, List.nodup_cons]
      constructor
      · intro hmem
        exact hv (by simp [hmem])
      · simp only [List.map_cons, List.nodup_cons] at hV
        exact hV.2
    · rw [dictInsert_cons_ne k0 v0 rest k v h0]
      simp only [List.map_cons, List.nodup_cons]
      simp only [List.map_cons, List.nodup_cons] at hV hK
      constructor
      · intro hmem
        rcases dictInsert_vals_sub rest k v v0 hmem with hx | hx
        · exact hV.1 hx
        · exact hv (by simp [hx])
      · exact ih hK.2 (fun hm => hv (by simp [hm])) hV.2

/-- Inserting keeps the key list duplicate-free. -/
theorem dictInsert_keys_nodup (d : List (Str × Str)) (k v : Str)
    (hK : (d.map Prod.fst).Nodup) :
    ((dictInsert d k v).map Prod.fst).Nodup := by
  by_cases h : d.any (fun p => p.1 = k)
  · simp only [dictInsert, h, if_true, List.map_map]
    have : d.map (Prod.fst ∘ fun p => if p.1 = k then (k, v) else p) =
        d.map Prod.fst := by
      apply List.map_congr_left
      intro p _
      by_cases hk : p.1 = k <;> simp [hk]
    rw [this]
    exact hK
  · rw [dictInsert_append_of_not_mem d k v (Bool.eq_false_iff.mpr h)]
    rw [List.map_append]
    have hknot : k ∉ d.map Prod.fst := by
      intro hm
      rcases List.mem_map.mp hm with ⟨p, hp, hpk⟩
      exact h (List.any_eq_true.mpr ⟨p, hp, by simp [hpk]⟩)
    simp only [List.map_cons, List.map_nil]
    rw [(List.perm_append_singleton k (d.map Prod.fst)).nodup_iff]
    exact List.nodup_cons.mpr ⟨hknot, hK⟩

/-- The six-part invariant preserved by one `get_slots` entity step under
`ignore_type=True` (empty `type_entities`): duplicate-free keys and
values, values that are subject/object tags of triples up to the current
one, a used entry for the current case's subject/object tag only after
its entity was marked, and keys all marked as added. -/
theorem slotsEntStep_inv (caseTr : Str × Str × Str) (idx : Nat)
    (st : Str × List (Str × Str) × List Str) (e : Str)
    (hK : (st.2.1.map Prod.fst).Nodup)
    (hV : (st.2.1.map Prod.snd).Nodup)
    (hB : ∀ v ∈ st.2.1.map Prod.snd, tagBelow (idx + 1) v)
    (hS : sbjTag idx ∈ st.2.1.map Prod.snd → caseTr.1 ∈ st.2.2)
    (hO : objTag idx ∈ st.2.1.map Prod.snd → caseTr.2.2 ∈ st.2.2)
    (hKA : ∀ k ∈ st.2.1.map Prod.fst, k ∈ st.2.2) :
    let out := slotsEntStep [] caseTr idx st e
    ((out.2.1.map Prod.fst).Nodup ∧ (out.2.1.map Prod.snd).Nodup ∧
     (∀ v ∈ out.2.1.map Prod.snd, tagBelow (idx + 1) v) ∧
     (sbjTag idx ∈ out.2.1.map Prod.snd → caseTr.1 ∈ out.2.2) ∧
     (objTag idx ∈ out.2.1.map Prod.snd → caseTr.2.2 ∈ out.2.2) ∧
     (∀ k ∈ out.2.1.map Prod.fst, k ∈ out.2.2)) := by
  intro out
  by_cases hadd : st.2.2.contains e
  · have hout : out = st := by
      simp only [out, slotsEntStep]
      rw [if_pos hadd]
    rw [hout]
    exact ⟨hK, hV, hB, hS, hO, hKA⟩
  · have hne : e ∉ st.2.2 := by simpa using hadd
    have hkeyne : st.2.1.any (fun p => p.1 = e) = false := by
      apply List.any_eq_false.mpr
      intro p hp
      simp only [decide_eq_true_eq]
      intro hpe
      exact hne (hpe ▸ hKA p.1 (List.mem_map.mpr ⟨p, hp, rfl⟩))
    by_cases hsbj : caseTr.1 = e
    · have hout : out = (subEnt e (sbjTag idx) st.1,
          st.2.1 ++ [(e, sbjTag idx)], st.2.2 ++ [e]) := by
        simp only [out, slotsEntStep]
        rw [if_neg hadd, if_neg (by simp), if_pos hsbj,
          dictInsert_append_of_not_mem _ _ _ hkeyne]
      have hfresh : sbjTag idx ∉ st.2.1.map Prod.snd := by
        intro hm
        exact hne (hsbj ▸ hS hm)
      rw [hout]
      refine ⟨?_, ?_, ?_, ?_, ?_, ?_⟩
      · rw [List.map_append]
        simp only [List.map_cons, List.map_nil]
        rw [(List.perm_append_singleton e (st.2.1.map Prod.fst)).nodup_iff]
        refine List.nodup_cons.mpr ⟨fun hm => hne (hKA e hm), hK⟩
      · rw [List.map_append]
        simp only [List.map_cons, List.map_nil]
        rw [(List.perm_append_singleton (sbjTag idx)
          (st.2.1.map Prod.snd)).nodup_iff]
        exact List.nodup_cons.mpr ⟨hfresh, hV⟩
      · intro v hv
        rw [List.map_append, List.mem_append] at hv
        rcases hv with hv | hv
        · exact hB v hv
        · simp only [List.map_cons, List.map_nil, List.mem_singleton] at hv
          exact ⟨idx, by omega, Or.inl hv⟩
      · intro _
        rw [hsbj]
        simp
      · intro hm
        rw [List.map_append, List.mem_append] at hm
        rcases hm with hm | hm
        · exact List.mem_append_left _ (hO hm)
        · simp only [List.map_cons, List.map_nil, List.mem_singleton] at hm
          exact absurd hm.symm (sbjTag_ne_objTag idx idx)
      · intro k hk
        rw [List.map_append, List.mem_append] at hk
        rcases hk with hk | hk
        · exact List.mem_append_left _ (hKA k hk)
        · simp only [List.map_cons, List.map_nil, List.mem_singleton] at hk
          subst hk
          simp
    · by_cases hobj : caseTr.2.2 = e
      · have hout : out = (subEnt e (objTag idx) st.1,
            st.2.1 ++ [(e, objTag idx)], st.2.2 ++ [e]) := by
          simp only [out, slotsEntStep]
          rw [if_neg hadd, if_neg (by simp), if_neg hsbj, if_pos hobj,
            dictInsert_append_of_not_mem _ _ _ hkeyne]
        have hfresh : objTag idx ∉ st.2.1.map Prod.snd := by
          intro hm
          exact hne (hobj ▸ hO hm)
        rw [hout]
        refine ⟨?_, ?_, ?_, ?_, ?_, ?_⟩
        · rw [List.map_append]
          simp only [List.map_cons, List.map_nil]
          rw [(List.perm_append_singleton e (st.2.1.map Prod.fst)).nodup_iff]
          exact List.nodup_cons.mpr ⟨fun hm => hne (hKA e hm), hK⟩
        · rw [List.map_append]
          simp only [List.map_cons, List.map_nil]
          rw [(List.perm_append_singleton (objTag idx)
            (st.2.1.map Prod.snd)).nodup_iff]
          exact List.nodup_cons.mpr ⟨hfresh, hV⟩
        · intro v hv
          rw [List.map_append, List.mem_append] at hv
          rcases hv with hv | hv
          · exact hB v hv
          · simp only [List.map_cons, List.map_nil, List.mem_singleton] at hv
            exact ⟨idx, by omega, Or.inr hv⟩
        · intro hm
          rw [List.map_append, List.mem_append] at hm
          rcases hm with hm | hm
          · exact List.mem_append_left _ (hS hm)
          · simp only [List.map_cons, List.map_nil, List.mem_singleton] at hm
            exact absurd hm (sbjTag_ne_objTag idx idx)
        · intro _
          rw [hobj]
          simp
        · intro k hk
          rw [List.map_append, List.mem_append] at hk
          rcases hk with hk | hk
          · exact List.mem_append_left _ (hKA k hk)
          · simp only [List.map_cons, List.map_nil, List.mem_singleton] at hk
            subst hk
            simp
      · have hout : out = st := by
          simp only [out, slotsEntStep]
          rw [if_neg hadd, if_neg (by simp), if_neg hsbj, if_neg hobj]
        rw [hout]
        exact ⟨hK, hV, hB, hS, hO, hKA⟩

/-- The invariant survives one full entity pass of a triple case. -/
theorem slotsEntFold_inv (caseTr : Str × Str × Str) (idx : Nat)
    (ents : List Str) :
    ∀ (st : Str × List (Str × Str) × List Str),
    (st.2.1.map Prod.fst).Nodup → (st.2.1.map Prod.snd).Nodup →
    (∀ v ∈ st.2.1.map Prod.snd, tagBelow (idx + 1) v) →
    (sbjTag idx ∈ st.2.1.map Prod.snd → caseTr.1 ∈ st.2.2) →
    (objTag idx ∈ st.2.1.map Prod.snd → caseTr.2.2 ∈ st.2.2) →
    (∀ k ∈ st.2.1.map Prod.fst, k ∈ st.2.2) →
    let out := ents.foldl (slotsEntStep [] caseTr idx) st
    ((out.2.1.map Prod.fst).Nodup ∧ (out.2.1.map Prod.snd).Nodup ∧
     (∀ v ∈ out.2.1.map Prod.snd, tagBelow (idx + 1) v) ∧
     (∀ k ∈ out.2.1.map Prod.fst, k ∈ out.2.2)) := by
  induction ents with
  | nil =>
    intro st hK hV hB _ _ hKA
    exact ⟨hK, hV, hB, hKA⟩
  | cons e rest ih =>
    intro st hK hV hB hS hO hKA
    obtain ⟨h1, h2, h3, h4, h5, h6⟩ :=
      slotsEntStep_inv caseTr idx st e hK hV hB hS hO hKA
    exact ih (slotsEntStep [] caseTr idx st e) h1 h2 h3 h4 h5 h6

/-- Over the whole triple loop the dictionary keeps duplicate-free keys
and values, and every value is a subject or object tag. -/
theorem slotsTriplesGo_inv (ents : List Str) (trs : List (Str × Str × Str)) :
    ∀ (idx : Nat) (st : Str × List (Str × Str) × List Str),
    (st.2.1.map Prod.fst).Nodup → (st.2.1.map Prod.snd).Nodup →
    (∀ v ∈ st.2.1.map Prod.snd, tagBelow idx v) →
    (∀ k ∈ st.2.1.map Prod.fst, k ∈ st.2.2) →
    let out := slotsTriplesGo [] ents trs idx st
    ((out.2.1.map Prod.fst).Nodup ∧ (out.2.1.map Prod.snd).Nodup ∧
     (∀ v ∈ out.2.1.map Prod.snd, ∃ j, v = sbjTag j ∨ v = objTag j)) := by
  induction trs with
  | nil =>
    intro idx st hK hV hB _
    exact ⟨hK, hV, fun v hv => (hB v hv).elim (fun j hj => ⟨j, hj.2⟩)⟩
  | cons tr rest ih =>
    intro idx st hK hV hB hKA
    have hB1 : ∀ v ∈ st.2.1.map Prod.snd, tagBelow (idx + 1) v :=
      fun v hv => tagBelow_mono (hB v hv)
    have hS : sbjTag idx ∈ st.2.1.map Prod.snd → tr.1 ∈ st.2.2 := by
      intro hm
      exact absurd rfl (not_sbjTag_of_tagBelow (hB _ hm) · )
    have hO : objTag idx ∈ st.2.1.map Prod.snd → tr.2.2 ∈ st.2.2 := by
      intro hm
      exact absurd rfl (not_objTag_of_tagBelow (hB _ hm) · )
    obtain ⟨h1, h2, h3, h4⟩ := slotsEntFold_inv tr idx ents st hK hV hB1 hS hO hKA
    exact ih (idx + 1) (ents.foldl (slotsEntStep [] tr idx) st) h1 h2 h3 h4

/-- C8 (amended): the final clause of the claim holds — `get_slots`
(ignore_type=True) never assigns one slot tag to two distinct entity
literals: in every slot dictionary it returns, the keys are pairwise
distinct and the values (slot tags) are pairwise distinct; the triple
loop yields only subject/object tags `<sbj_i>`/`<obj_i>` whose one-based
indices make them unique, and the later `<str_value>`/`<num>` entries
cannot collide with them.  The positional clause of the claim — that the
template produced by `get_empty_query` contains each assigned tag where
the entity occurred — is false (see the counterexample): the substitution
pattern `entity + (?=[.\s}])` can miss an occurrence that the triple scan
found, in which case the dictionary entry is recorded but the template
keeps the raw entity and never receives the tag. -/
theorem c8_slot_tags_injective (q : Str) (d : List (Str × Str))
    (h : get_slots q = some d) :
    (d.map Prod.fst).Nodup ∧ (d.map Prod.snd).Nodup := by
  simp only [get_slots] at h
  cases he : entitiesOfQuery q with
  | none => rw [he] at h; cases h
  | some ents =>
    rw [he] at h
    simp only [Option.some.injEq] at h
    obtain ⟨hK0, hV0, hT0⟩ := slotsTriplesGo_inv ents (tripleScan q) 1
      (q, [], []) (by simp) (by simp) (by simp) (by simp)
    set st := slotsTriplesGo [] ents (tripleScan q) 1 (q, [], []) with hst
    have step2 : ∀ (d1 : List (Str × Str)),
        (d1.map Prod.fst).Nodup → (d1.map Prod.snd).Nodup →
        (∀ v ∈ d1.map Prod.snd, ∃ j, v = sbjTag j ∨ v = objTag j) →
        ∀ s : Str,
        (((dictInsert d1 s ("<str_value>".toList)).map Prod.fst).Nodup ∧
         ((dictInsert d1 s ("<str_value>".toList)).map Prod.snd).Nodup ∧
         ∀ v ∈ (dictInsert d1 s ("<str_value>".toList)).map Prod.snd,
           (∃ j, v = sbjTag j ∨ v = objTag j) ∨ v = "<str_value>".toList) := by
      intro d1 hK hV hT s
      have hfresh : "<str_value>".toList ∉ d1.map Prod.snd := by
        intro hm
        rcases hT _ hm with ⟨j, hj | hj⟩
        · exact sbjTag_ne_strValueTag j hj.symm
        · exact objTag_ne_strValueTag j hj.symm
      exact ⟨dictInsert_keys_nodup d1 s _ hK,
        dictInsert_vals_nodup d1 s _ hK hfresh hV,
        fun v hv => (dictInsert_vals_sub d1 s _ v hv).imp (hT v) id⟩
    have step3 : ∀ (d2 : List (Str × Str)),
        (d2.map Prod.fst).Nodup → (d2.map Prod.snd).Nodup →
        (∀ v ∈ d2.map Prod.snd,
          (∃ j, v = sbjTag j ∨ v = objTag j) ∨ v = "<str_value>".toList) →
        ∀ s : Str,
        (((dictInsert d2 s ("<num>".toList)).map Prod.fst).Nodup ∧
         ((dictInsert d2 s ("<num>".toList)).map Prod.snd).Nodup) := by
      intro d2 hK hV hT s
      have hfresh : "<num>".toList ∉ d2.map Prod.snd := by
        intro hm
        rcases hT _ hm with ⟨j, hj | hj⟩ | hj
        · exact sbjTag_ne_numTag j hj.symm
        · exact objTag_ne_numTag j hj.symm
        · exact absurd hj.symm (by decide)
      exact ⟨dictInsert_keys_nodup d2 s _ hK,
        dictInsert_vals_nodup d2 s _ hK hfresh hV⟩
    have hT0' : ∀ v ∈ st.2.1.map Prod.snd,
        (∃ j, v = sbjTag j ∨ v = objTag j) ∨ v = "<str_value>".toList :=
      fun v hv => Or.inl (hT0 v hv)
    subst h
    cases hsv : (str_values_fix st.1).2 with
    | none =>
      simp only [hsv]
      cases hnm : (number_fix (str_values_fix st.1).1).2 with
      | none => exact ⟨hK0, hV0⟩
      | some n =>
        simp only [hnm]
        by_cases hn0 : n = []
        · simp only [hn0, if_pos rfl]
          exact ⟨hK0, hV0⟩
        · simp only [if_neg hn0]
          exact step3 st.2.1 hK0 hV0 hT0' n
    | some s =>
      simp only [hsv]
      by_cases hs0 : s = []
      · simp only [hs0, if_pos rfl]
        cases hnm : (number_fix (str_values_fix st.1).1).2 with
        | none => exact ⟨hK0, hV0⟩
        | some n =>
          simp only [hnm]
          by_cases hn0 : n = []
          · simp only [hn0, if_pos rfl]
            exact ⟨hK0, hV0⟩
          · simp only [if_neg hn0]
            exact step3 st.2.1 hK0 hV0 hT0' n
      · simp only [if_neg hs0]
        obtain ⟨hK1, hV1, hT1⟩ := step2 st.2.1 hK0 hV0 hT0 s
        cases hnm : (number_fix (str_values_fix st.1).1).2 with
        | none => exact ⟨hK1, hV1⟩
        | some n =>
          simp only [hnm]
          by_cases hn0 : n = []
          · simp only [hn0, if_pos rfl]
            exact ⟨hK1, hV1⟩
          · simp only [if_neg hn0]
            exact step3 _ hK1 hV1 hT1 n

/-- Witness for `c8_slot_tags_injective` on the counterexample query. -/
theorem c8_slot_tags_injective_witness :
    get_slots c8Query = some [("wd:Q5".toList, "<obj_1>".toList)] ∧
    (([("wd:Q5".toList, "<obj_1>".toList)] : List (Str × Str)).map
      Prod.fst).Nodup ∧
    (([("wd:Q5".toList, "<obj_1>".toList)] : List (Str × Str)).map
      Prod.snd).Nodup :=
  ⟨by decide, (c8_slot_tags_injective c8Query _ (by decide)).1,
    (c8_slot_tags_injective c8Query _ (by decide)).2⟩

/-- Counterexample to C8 as stated: on `ask \x7b ?x wdt:P1 wd:Q5` (the
entity closes the string, so the substitution lookahead `(?=[.\s}])`
finds nothing to replace), `get_slots` maps `wd:Q5` to `<obj_1>`, but the
template from `get_empty_query` still contains the literal `wd:Q5` and
contains `<obj_1>` nowhere, so the slot tag does not stand at the
entity's positions. -/
theorem c8_template_counterexample :
    get_slots c8Query = some [("wd:Q5".toList, "<obj_1>".toList)] ∧
    get_empty_query c8Query = some c8Template ∧
    containsSub ("wd:Q5".toList) c8Template = true ∧
    containsSub ("<obj_1>".toList) c8Template = false := by
  exact ⟨by decide, by decide, by decide, by decide⟩

end ElNeuKGQA
